import Mathlib

/-!
Verification development for the densing-ui schema codecs.

The TypeScript sources are shallowly embedded as follows.

* A JavaScript string is modelled as the list of its UTF-16 code units
  (type Str below); the source's charCodeAt and String.fromCharCode become
  the identity at this representation, and string literals of the source are
  written through the helper jstr.
* JavaScript numbers that hold field attributes (min, max, precision,
  minLength, maxLength) are modelled as rationals, which represent the
  decimal literals of the source (0.1 and friends) exactly.
* The bitwise code of the base64url accumulator runs on JavaScript 32-bit
  integer coercions; it is modelled on Nat with an explicit mod 2^32 after
  every shift, which agrees with the signed 32-bit semantics because every
  extracted bit position is below 32.
* Mutation of the string table (Array.prototype.push inside
  getStringIndex) is modelled by explicit state passing: each function
  returns the updated table.
* The external densing codec (densing/undensing) and the external zstd
  compressor are out of the repository: the bit-packed pair is modelled as a
  faithful transport of the meta structure handed to densing, and the
  compressed pair is parameterised over the external compress/decompress
  and JSON serialisation functions, constrained only by the pointwise
  round-trip facts the source assumes of them.
* Generated identifiers (Date.now() and Math.random() concatenations) are
  never read back by any of the verified functions, and every claim exempts
  them; the embedded configuration type therefore omits the id attribute.
-/

/-- A JavaScript string as its list of UTF-16 code units (meta-schema.ts
stores strings as charCodeAt values, so this representation makes the
string-table functions exact). -/
abbrev Str := List Nat

/-- Write a source string literal as its code-unit list. -/
def jstr (s : String) : Str :=
  s.toList.map Char.toNat

/-- The string-table separator, the code of the bar character that
meta-schema.ts joins and splits on. -/
def sepCode : Nat := 124

/-- One table extends another: the relation getStringIndex and the encoders
preserve, since the table only ever grows by appending. -/
def TblPref (s t : List Str) : Prop :=
  ∃ r, s ++ r = t

/-- Bool check that a stored string does not contain the separator. -/
def sepFree : Str → Bool
  | [] => true
  | c :: rest => (c != sepCode) && sepFree rest

/-- Bool check over a whole table. -/
def sepFreeTbl : List Str → Bool
  | [] => true
  | s :: rest => sepFree s && sepFreeTbl rest

/-- Bool membership for strings. -/
def memStr : Str → List Str → Bool
  | _, [] => false
  | x, y :: rest => x == y || memStr x rest

/-- Bool duplicate-freedom for a list of strings. -/
def nodupStr : List Str → Bool
  | [] => true
  | x :: rest => !memStr x rest && nodupStr rest

/-- strings.join of Array.prototype: the separator between elements. -/
def joinSep : List Str → List Nat
  | [] => []
  | [s] => s
  | s :: rest => s ++ sepCode :: joinSep rest

/-- String.prototype.split on the separator (split of the empty string is
the one-element list holding the empty string, as in JavaScript). -/
def splitSep : List Nat → List Str
  | [] => [[]]
  | c :: rest =>
    let r := splitSep rest
    if c = sepCode then [] :: r
    else (c :: r.headD []) :: r.tail

/-- encodeStringTable of meta-schema.ts: join all strings with the bar
separator and take the character codes (the identity at this
representation). -/
def encodeStringTable (strings : List Str) : List Nat :=
  joinSep strings

/-- decodeStringTable of meta-schema.ts: rebuild the joined string from the
codes and split on the bar separator. -/
def decodeStringTable (charCodes : List Nat) : List Str :=
  splitSep charCodes

/-- Array.prototype.indexOf, with the source's -1 sentinel modelled as
none. -/
def indexOfStr {α : Type} [DecidableEq α] : List α → α → Option Nat
  | [], _ => none
  | x :: rest, s => if x = s then some 0 else (indexOfStr rest s).map (· + 1)

/-- getStringIndex of meta-schema.ts: return the index of an existing entry,
or append the string and return its new index; the mutated table is
returned alongside the index. -/
def getStringIndex (strings : List Str) (s : Str) : Nat × List Str :=
  match indexOfStr strings s with
  | some i => (i, strings)
  | none => (strings.length, strings ++ [s])

/-- Intern each string of a list in order (the options.map calls of
fieldConfigToMetaFormat), returning the indices and the final table. -/
def internList : List Str → List Str → List Nat × List Str
  | [], s => ([], s)
  | x :: rest, s =>
    let (i, s1) := getStringIndex s x
    let (idxs, s2) := internList rest s1
    (i :: idxs, s2)

/-! ## The base64url bit accumulator of schema-codec-zstd.ts -/

/-- The URL-safe alphabet of schema-codec-zstd.ts, as code units. -/
def base64urlChars : List Nat :=
  jstr "ABCDEFGHIJKLMNOPQRSTUVWXYZabcdefghijklmnopqrstuvwxyz0123456789-_"

/-- Indexing the alphabet string (the index handed to it is always below
64, the string's length). -/
def b64char (v : Nat) : Nat :=
  base64urlChars.getD v 0

/-- The reverse lookup map of base64UrlDecode; the alphabet has no repeated
character, so the first index is the map's value. -/
def charToValue (c : Nat) : Option Nat :=
  indexOfStr base64urlChars c

/-- The 32-bit wraparound of JavaScript bitwise operators. -/
def wrap32 (n : Nat) : Nat := n % 4294967296

/-- The while loop of base64UrlEncode: while at least 6 bits are buffered,
emit the alphabet symbol at the top 6 bits. Returns (bits, bitCount,
output). -/
def emitLoop (bits : Nat) : Nat → List Nat → Nat × Nat × List Nat
  | bitCount, out =>
    if 6 ≤ bitCount then
      emitLoop bits (bitCount - 6) (out ++ [b64char ((bits >>> (bitCount - 6)) &&& 63)])
    else (bits, bitCount, out)

/-- The body of base64UrlEncode's for loop for one byte: shift the byte into
the bit buffer and drain complete 6-bit groups. -/
def encOne (st : Nat × Nat × List Nat) (b : Nat) : Nat × Nat × List Nat :=
  let bits := wrap32 (st.1 <<< 8) ||| b
  emitLoop bits (st.2.1 + 8) st.2.2

/-- base64UrlEncode of schema-codec-zstd.ts: accumulate each byte, emit
6-bit symbols, and flush the remaining bits left-shifted to fill a final
symbol; no padding character is written. -/
def base64UrlEncode (bytes : List Nat) : List Nat :=
  let st := bytes.foldl encOne (0, 0, [])
  if 0 < st.2.1 then st.2.2 ++ [b64char (wrap32 (st.1 <<< (6 - st.2.1)) &&& 63)]
  else st.2.2

/-- The body of base64UrlDecode's loop for one character: characters outside
the alphabet are skipped (the continue branch); otherwise the 6-bit value is
accumulated and a byte is emitted once 8 bits are buffered. -/
def decOne (st : Nat × Nat × List Nat) (c : Nat) : Nat × Nat × List Nat :=
  match charToValue c with
  | none => st
  | some v =>
    let bits := wrap32 (st.1 <<< 6) ||| v
    let bitCount := st.2.1 + 6
    if 8 ≤ bitCount then (bits, bitCount - 8, st.2.2 ++ [(bits >>> (bitCount - 8)) &&& 255])
    else (bits, bitCount, st.2.2)

/-- base64UrlDecode of schema-codec-zstd.ts: reverse-look up each character
and emit a byte whenever 8 bits are buffered; trailing bits that do not
complete a byte are discarded. -/
def base64UrlDecode (s : List Nat) : List Nat :=
  (s.foldl decOne (0, 0, [])).2.2

/-! ## The field trees: the builder configuration and the wire field -/

/-- The FieldConfig interface of SchemaBuilder.tsx, one constructor per
value of its type tag, each carrying the optional attributes the source
reads for that tag. The id attribute is omitted (see the header). -/
inductive FieldConfig where
  | bool (name : Str)
  | int (name : Str) (min max : Option Rat)
  | fixed (name : Str) (min max precision : Option Rat)
  | enum (name : Str) (options : Option (List Str))
  | optional (name : Str) (wrappedField : Option FieldConfig)
  | array (name : Str) (minLength maxLength : Option Rat) (wrappedField : Option FieldConfig)
  | enumArray (name : Str) (minLength maxLength : Option Rat) (enumField : Option FieldConfig)
  | object (name : Str) (fields : Option (List FieldConfig))
  | union (name : Str) (discriminatorField : Option FieldConfig)
      (variants : Option (List (Str × List FieldConfig)))

/-- The name attribute, present on every configuration. -/
def FieldConfig.name : FieldConfig → Str
  | .bool n => n
  | .int n _ _ => n
  | .fixed n _ _ _ => n
  | .enum n _ => n
  | .optional n _ => n
  | .array n _ _ _ => n
  | .enumArray n _ _ _ => n
  | .object n _ => n
  | .union n _ _ => n

/-- Reading the options attribute of a configuration (field.options in the
source, defined only on enum configurations; on the other tags the source
reads the JavaScript value undefined, modelled as none). -/
def FieldConfig.optionsAttr : FieldConfig → Option (List Str)
  | .enum _ opts => opts
  | _ => none

/-- The wire field tree of the external densing model (the DenseField
objects that bool, int, fixed, enumeration, optional, array, enumArray,
object, union and pointer construct, carrying exactly the attributes
schema-to-config.ts reads back). -/
inductive DenseField where
  | bool (name : Str)
  | int (name : Str) (min max : Rat)
  | fixed (name : Str) (min max precision : Rat)
  | enum (name : Str) (options : List Str)
  | optional (name : Str) (field : DenseField)
  | array (name : Str) (minLength maxLength : Rat) (field : DenseField)
  | enumArray (name : Str) (minLength maxLength : Rat) (enumField : DenseField)
  | object (name : Str) (fields : List DenseField)
  | union (name : Str) (discriminator : DenseField) (variants : List (Str × List DenseField))
  | pointer (name : Str) (targetName : Str)

/-- The name of a wire field. -/
def DenseField.name : DenseField → Str
  | .bool n => n
  | .int n _ _ => n
  | .fixed n _ _ _ => n
  | .enum n _ => n
  | .optional n _ => n
  | .array n _ _ _ => n
  | .enumArray n _ _ _ => n
  | .object n _ => n
  | .union n _ _ => n
  | .pointer n _ => n

/-- The options attribute of a wire field (present on enum fields; reading
it on any other field yields undefined in the source, modelled as none). -/
def DenseField.optionsAttr : DenseField → Option (List Str)
  | .enum _ opts => opts
  | _ => none

mutual

/-- buildDenseField of SchemaBuilder.tsx: build the wire field from a
configuration, substituting the documented defaults for absent attributes
and synthesising the documented default nested fields. -/
def buildDenseField : FieldConfig → DenseField
  | .bool name => .bool name
  | .int name mn mx => .int name (mn.getD 0) (mx.getD 100)
  | .fixed name mn mx pr => .fixed name (mn.getD 0) (mx.getD 100) (pr.getD (1/10))
  | .enum name opts => .enum name (opts.getD [jstr "option1", jstr "option2"])
  | .optional name w =>
    match w with
    | some g => .optional name (buildDenseField g)
    | none => .optional name (.bool (jstr "value"))
  | .array name mnl mxl w =>
    match w with
    | some g => .array name (mnl.getD 0) (mxl.getD 10) (buildDenseField g)
    | none => .array name 0 10 (.int (jstr "item") 0 100)
  | .enumArray name mnl mxl ef =>
    match ef with
    | some g => .enumArray name (mnl.getD 0) (mxl.getD 10) (buildDenseField g)
    | none => .enumArray name 0 10 (.enum (jstr "item") [jstr "A", jstr "B", jstr "C"])
  | .object name fs =>
    match fs with
    | some (f :: rest) => .object name (buildDenseFieldList (f :: rest))
    | _ => .object name [.bool (jstr "field1")]
  | .union name d v =>
    match d, v with
    | some d, some v => .union name (buildDenseField d) (buildDenseVariants v)
    | _, _ =>
      .union name (.enum (jstr "type") [jstr "A", jstr "B"])
        [(jstr "A", [.bool (jstr "fieldA")]),
         (jstr "B", [.int (jstr "fieldB") 0 100])]

/-- config.fields.map(buildDenseField). -/
def buildDenseFieldList : List FieldConfig → List DenseField
  | [] => []
  | f :: rest => buildDenseField f :: buildDenseFieldList rest

/-- Object.entries(config.variants) mapped over buildDenseField (entry
order preserved). -/
def buildDenseVariants : List (Str × List FieldConfig) → List (Str × List DenseField)
  | [] => []
  | (k, fls) :: rest => (k, buildDenseFieldList fls) :: buildDenseVariants rest

end

mutual

/-- convertDenseFieldToConfig of schema-to-config.ts: recover an editable
configuration from a wire field. Returns none where the source returns
null (the default branch, hit by pointer fields) or would fail on a
malformed field (reading .options of a non-enum discriminator or inner
enum-array field, a spread of undefined). -/
def convertDenseFieldToConfig : DenseField → Option FieldConfig
  | .bool name => some (.bool name)
  | .int name mn mx => some (.int name (some mn) (some mx))
  | .fixed name mn mx pr => some (.fixed name (some mn) (some mx) (some pr))
  | .enum name opts => some (.enum name (some opts))
  | .optional name f =>
    match convertDenseFieldToConfig f with
    | some wrapped => some (.optional name (some wrapped))
    | none => none
  | .array name mnl mxl f =>
    match convertDenseFieldToConfig f with
    | some item => some (.array name (some mnl) (some mxl) (some item))
    | none => none
  | .enumArray name mnl mxl ef =>
    match ef.optionsAttr with
    | some opts =>
      some (.enumArray name (some mnl) (some mxl)
        (some (.enum (jstr "item") (some opts))))
    | none => none
  | .object name fs => some (.object name (some (convertDenseListToConfig fs)))
  | .union name d v =>
    match d.optionsAttr with
    | some opts =>
      some (.union name
        (some (.enum d.name (some opts)))
        (some (convertDenseVariantsToConfig v)))
    | none => none
  | .pointer _ _ => none

/-- field.fields.forEach with the null results dropped. -/
def convertDenseListToConfig : List DenseField → List FieldConfig
  | [] => []
  | f :: rest =>
    match convertDenseFieldToConfig f with
    | some c => c :: convertDenseListToConfig rest
    | none => convertDenseListToConfig rest

/-- Object.entries(field.variants) mapped back, null results filtered. -/
def convertDenseVariantsToConfig : List (Str × List DenseField) → List (Str × List FieldConfig)
  | [] => []
  | (k, fls) :: rest => (k, convertDenseListToConfig fls) :: convertDenseVariantsToConfig rest

end

/-- Whether a configuration carries the enum tag. -/
def FieldConfig.isEnumKind : FieldConfig → Bool
  | .enum _ _ => true
  | _ => false

/-- JavaScript object lookup with a default (field.variants?.[opt] ?? []). -/
def lookupD {α : Type} : List (Str × α) → Str → α → α
  | [], _, d => d
  | (k, v) :: rest, key, d => if k = key then v else lookupD rest key d

/-- JavaScript object assignment obj[k] = v: an existing key keeps its
position and gets the new value, a new key is appended. -/
def recordSet {α : Type} : List (Str × α) → Str → α → List (Str × α)
  | [], k, v => [(k, v)]
  | (k0, v0) :: rest, k, v =>
    if k0 = k then (k, v) :: rest else (k0, v0) :: recordSet rest k v

/-! ## The bit-packed meta format (schema-codec.ts, second revision, the
one the claims cite: each node stores a nameIndex into the string table) -/

/-- The meta-schema payload of one field, one constructor per discriminator
option of the recursive union of meta-schema.ts. -/
inductive MetaField where
  | mbool (nameIndex : Nat)
  | mint (nameIndex : Nat) (min max : Rat)
  | mfixed (nameIndex : Nat) (min max precision : Rat)
  | menum (nameIndex : Nat) (options : List Nat)
  | moptional (nameIndex : Nat) (wrapped : Option MetaField)
  | marray (nameIndex : Nat) (minLength maxLength : Rat) (item : Option MetaField)
  | menumArray (nameIndex : Nat) (minLength maxLength : Rat) (options : List Nat)
  | mobject (nameIndex : Nat) (fields : List MetaField)
  | munion (nameIndex : Nat) (options : List Nat) (variants : List (List MetaField))

mutual

/-- fieldConfigToMetaFormat of schema-codec.ts: intern the field name, then
build the kind-specific payload, interning every option literal; the
mutated string table is threaded through and returned. -/
def fieldConfigToMetaFormat : FieldConfig → List Str → MetaField × List Str
  | f, strings =>
    let (ni, s0) := getStringIndex strings f.name
    match f with
    | .bool _ => (.mbool ni, s0)
    | .int _ mn mx => (.mint ni (mn.getD 0) (mx.getD 100), s0)
    | .fixed _ mn mx pr => (.mfixed ni (mn.getD 0) (mx.getD 100) (pr.getD (1/10)), s0)
    | .enum _ opts =>
      let (idxs, s1) := internList (opts.getD []) s0
      (.menum ni idxs, s1)
    | .optional _ w =>
      match w with
      | some g =>
        let (mg, s1) := fieldConfigToMetaFormat g s0
        (.moptional ni (some mg), s1)
      | none => (.moptional ni none, s0)
    | .array _ mnl mxl w =>
      match w with
      | some g =>
        let (mg, s1) := fieldConfigToMetaFormat g s0
        (.marray ni (mnl.getD 0) (mxl.getD 10) (some mg), s1)
      | none => (.marray ni (mnl.getD 0) (mxl.getD 10) none, s0)
    | .enumArray _ mnl mxl ef =>
      let (idxs, s1) := internList ((ef.bind FieldConfig.optionsAttr).getD []) s0
      (.menumArray ni (mnl.getD 0) (mxl.getD 10) idxs, s1)
    | .object _ fs =>
      let (mfs, s1) := configListToMetaFormat (fs.getD []) s0
      (.mobject ni mfs, s1)
    | .union _ d v =>
      let dOpts := (d.bind FieldConfig.optionsAttr).getD []
      let (idxs, s1) := internList dOpts s0
      let (mvars, s2) := variantsToMetaFormat dOpts (v.getD []) s1
      (.munion ni idxs mvars, s2)
termination_by f _ => ((sizeOf f : Nat), (0 : Nat))
decreasing_by
  all_goals simp_wf
  · exact Prod.Lex.left _ _ (by omega)
  · exact Prod.Lex.left _ _ (by omega)
  · rename_i fs
    exact Prod.Lex.left _ _ (by cases fs <;> simp <;> omega)
  · rename_i d v
    exact Prod.Lex.left _ _ (by cases v <;> cases d <;> simp <;> omega)

/-- (field.fields ?? []).map(f => fieldConfigToMetaFormat(f, strings)). -/
def configListToMetaFormat : List FieldConfig → List Str → List MetaField × List Str
  | [], s => ([], s)
  | f :: rest, s =>
    let (mf, s1) := fieldConfigToMetaFormat f s
    let (mfs, s2) := configListToMetaFormat rest s1
    (mf :: mfs, s2)
termination_by l _ => ((sizeOf l : Nat), (0 : Nat))
decreasing_by
  all_goals simp_wf
  · exact Prod.Lex.left _ _ (by omega)
  · exact Prod.Lex.left _ _ (by omega)

/-- discriminatorOptions.map(opt => (field.variants?.[opt] ?? []).map(...)):
the variant lists are visited in discriminator-option order, looking each
option up in the stored variants. -/
def variantsToMetaFormat :
    List Str → List (Str × List FieldConfig) → List Str → List (List MetaField) × List Str
  | [], _, s => ([], s)
  | opt :: rest, vmap, s =>
    let (mfs, s1) := configListToMetaFormat (lookupD vmap opt []) s
    let (tail, s2) := variantsToMetaFormat rest vmap s1
    (mfs :: tail, s2)
termination_by opts vmap _ => ((1 + sizeOf vmap : Nat), opts.length)
decreasing_by
  all_goals simp_wf
  · have h : sizeOf (lookupD vmap opt ([] : List FieldConfig)) ≤ sizeOf vmap := by
      induction vmap with
      | nil => simp [lookupD]
      | cons p r ih =>
        obtain ⟨k, v⟩ := p
        simp only [lookupD]
        split
        · simp
          omega
        · have := ih
          simp
          omega
    exact Prod.Lex.left _ _ (by omega)
  · exact Prod.Lex.right _ (by omega)

end

/-- strings[nameIndex] || 'field' of metaFormatToFieldConfig: an index out
of range reads undefined, and an empty string is falsy; both fall back to
the literal field. -/
def metaName (t : List Str) (ni : Nat) : Str :=
  match t[ni]? with
  | some s => if s = [] then jstr "field" else s
  | none => jstr "field"

/-- strings[idx] of the option lists; the claims only reach in-range
indices, and an out-of-range read (undefined in the source) is modelled as
the empty string. -/
def resolveStr (t : List Str) (i : Nat) : Str :=
  t[i]?.getD []

mutual

/-- metaFormatToFieldConfig of schema-codec.ts: rebuild a configuration
from its meta payload, resolving every stored index through the decoded
string table. -/
def metaFormatToFieldConfig : MetaField → List Str → FieldConfig
  | .mbool ni, t => .bool (metaName t ni)
  | .mint ni mn mx, t => .int (metaName t ni) (some mn) (some mx)
  | .mfixed ni mn mx pr, t => .fixed (metaName t ni) (some mn) (some mx) (some pr)
  | .menum ni idxs, t => .enum (metaName t ni) (some (idxs.map (resolveStr t)))
  | .moptional ni w, t =>
    match w with
    | some mg => .optional (metaName t ni) (some (metaFormatToFieldConfig mg t))
    | none => .optional (metaName t ni) none
  | .marray ni mnl mxl item, t =>
    match item with
    | some mg => .array (metaName t ni) (some mnl) (some mxl) (some (metaFormatToFieldConfig mg t))
    | none => .array (metaName t ni) (some mnl) (some mxl) none
  | .menumArray ni mnl mxl idxs, t =>
    .enumArray (metaName t ni) (some mnl) (some mxl)
      (some (.enum (jstr "item") (some (idxs.map (resolveStr t)))))
  | .mobject ni mfs, t => .object (metaName t ni) (some (metaListToFieldConfig mfs t))
  | .munion ni idxs mvars, t =>
    let dOpts := idxs.map (resolveStr t)
    .union (metaName t ni)
      (some (.enum (jstr "type") (some dOpts)))
      (some (decodeVariantsLoop t mvars dOpts 0 []))
termination_by mf _ => ((sizeOf mf : Nat), (0 : Nat))
decreasing_by
  all_goals simp_wf
  · exact Prod.Lex.left _ _ (by omega)
  · exact Prod.Lex.left _ _ (by omega)
  · exact Prod.Lex.left _ _ (by omega)
  · exact Prod.Lex.left _ _ (by cases idxs <;> simp <;> omega)

/-- metaField.fields.map(f => metaFormatToFieldConfig(f, strings)). -/
def metaListToFieldConfig : List MetaField → List Str → List FieldConfig
  | [], _ => []
  | mf :: rest, t => metaFormatToFieldConfig mf t :: metaListToFieldConfig rest t
termination_by l _ => ((sizeOf l : Nat), (0 : Nat))
decreasing_by
  all_goals simp_wf
  · exact Prod.Lex.left _ _ (by omega)
  · exact Prod.Lex.left _ _ (by omega)

/-- discriminatorOptions.forEach((opt, i) => variants[opt] =
metaField.variants[i].variantFields.map(...)): the decoded record is built
by JavaScript assignment in option order; an out-of-range variants[i]
(impossible for encoder output) is modelled as the empty list. -/
def decodeVariantsLoop (t : List Str) (mvars : List (List MetaField)) :
    List Str → Nat → List (Str × List FieldConfig) → List (Str × List FieldConfig)
  | [], _, acc => acc
  | opt :: rest, i, acc =>
    decodeVariantsLoop t mvars rest (i + 1)
      (recordSet acc opt (metaListToFieldConfig (mvars[i]?.getD []) t))
termination_by opts _ _ => ((1 + sizeOf mvars : Nat), opts.length)
decreasing_by
  all_goals simp_wf
  · have h : sizeOf (mvars[i]?.getD ([] : List MetaField)) ≤ sizeOf mvars := by
      have hall : ∀ (l : List (List MetaField)) (j : Nat),
          sizeOf (l[j]?.getD ([] : List MetaField)) ≤ sizeOf l := by
        intro l
        induction l with
        | nil => intro j; simp
        | cons x r ih =>
          intro j
          cases j with
          | zero => simp; omega
          | succ j =>
            have := ih j
            simp only [List.getElem?_cons_succ]
            simp
            omega
      exact hall mvars i
    exact Prod.Lex.left _ _ (by omega)
  · exact Prod.Lex.right _ (by omega)

end

/-! ## Normal forms of the two round trips -/

mutual

/-- The configuration the bit-packed round trip returns for a well-formed
input: absent numeric attributes become their documented defaults, a union
discriminator is renamed type, an enum-array inner field is renamed item,
and everything else is preserved. -/
def normalizeC1 : FieldConfig → FieldConfig
  | .bool n => .bool n
  | .int n mn mx => .int n (some (mn.getD 0)) (some (mx.getD 100))
  | .fixed n mn mx pr =>
    .fixed n (some (mn.getD 0)) (some (mx.getD 100)) (some (pr.getD (1/10)))
  | .enum n opts => .enum n (some (opts.getD []))
  | .optional n w =>
    match w with
    | some g => .optional n (some (normalizeC1 g))
    | none => .optional n none
  | .array n mnl mxl w =>
    match w with
    | some g => .array n (some (mnl.getD 0)) (some (mxl.getD 10)) (some (normalizeC1 g))
    | none => .array n (some (mnl.getD 0)) (some (mxl.getD 10)) none
  | .enumArray n mnl mxl ef =>
    .enumArray n (some (mnl.getD 0)) (some (mxl.getD 10))
      (some (.enum (jstr "item") (some ((ef.bind FieldConfig.optionsAttr).getD []))))
  | .object n fs => .object n (some (normalizeC1List (fs.getD [])))
  | .union n d v =>
    let dOpts := (d.bind FieldConfig.optionsAttr).getD []
    .union n (some (.enum (jstr "type") (some dOpts)))
      (some (normalizeC1Variants dOpts (v.getD [])))
termination_by f => ((sizeOf f : Nat), (0 : Nat))
decreasing_by
  all_goals simp_wf
  · exact Prod.Lex.left _ _ (by omega)
  · exact Prod.Lex.left _ _ (by omega)
  · rename_i fs
    exact Prod.Lex.left _ _ (by cases fs <;> simp <;> omega)
  · rename_i d v
    exact Prod.Lex.left _ _ (by cases v <;> cases d <;> simp <;> omega)

/-- Pointwise image of normalizeC1 over a field list. -/
def normalizeC1List : List FieldConfig → List FieldConfig
  | [] => []
  | f :: rest => normalizeC1 f :: normalizeC1List rest
termination_by l => ((sizeOf l : Nat), (0 : Nat))
decreasing_by
  all_goals simp_wf
  · exact Prod.Lex.left _ _ (by omega)
  · exact Prod.Lex.left _ _ (by omega)

/-- The round-tripped variants record: one entry per discriminator option
in order, holding the normalised stored list (empty when the option has no
entry). -/
def normalizeC1Variants : List Str → List (Str × List FieldConfig) → List (Str × List FieldConfig)
  | [], _ => []
  | o :: rest, vmap => (o, normalizeC1List (lookupD vmap o [])) :: normalizeC1Variants rest vmap
termination_by opts vmap => ((1 + sizeOf vmap : Nat), opts.length)
decreasing_by
  all_goals simp_wf
  · have h : sizeOf (lookupD vmap o ([] : List FieldConfig)) ≤ sizeOf vmap := by
      induction vmap with
      | nil => simp [lookupD]
      | cons p r ih =>
        obtain ⟨k, v⟩ := p
        simp only [lookupD]
        split
        · simp
          omega
        · have := ih
          simp
          omega
    exact Prod.Lex.left _ _ (by omega)
  · exact Prod.Lex.right _ (by omega)

end

mutual

/-- The configuration the builder round trip (buildDenseField then
convertDenseFieldToConfig) returns for a well-formed input: documented
defaults fill absent attributes, the synthesized nested fields replace
missing ones, and an enum-array inner field is renamed item. -/
def normalizeC2 : FieldConfig → FieldConfig
  | .bool n => .bool n
  | .int n mn mx => .int n (some (mn.getD 0)) (some (mx.getD 100))
  | .fixed n mn mx pr =>
    .fixed n (some (mn.getD 0)) (some (mx.getD 100)) (some (pr.getD (1/10)))
  | .enum n opts => .enum n (some (opts.getD [jstr "option1", jstr "option2"]))
  | .optional n w =>
    match w with
    | some g => .optional n (some (normalizeC2 g))
    | none => .optional n (some (.bool (jstr "value")))
  | .array n mnl mxl w =>
    match w with
    | some g => .array n (some (mnl.getD 0)) (some (mxl.getD 10)) (some (normalizeC2 g))
    | none => .array n (some 0) (some 10) (some (.int (jstr "item") (some 0) (some 100)))
  | .enumArray n mnl mxl ef =>
    match ef with
    | some g =>
      .enumArray n (some (mnl.getD 0)) (some (mxl.getD 10))
        (some (.enum (jstr "item") (some (g.optionsAttr.getD [jstr "option1", jstr "option2"]))))
    | none =>
      .enumArray n (some 0) (some 10)
        (some (.enum (jstr "item") (some [jstr "A", jstr "B", jstr "C"])))
  | .object n fs =>
    match fs with
    | some (f :: rest) => .object n (some (normalizeC2List (f :: rest)))
    | _ => .object n (some [.bool (jstr "field1")])
  | .union n d v =>
    match d, v with
    | some dd, some vm =>
      .union n
        (some (.enum dd.name (some (dd.optionsAttr.getD [jstr "option1", jstr "option2"]))))
        (some (normalizeC2Variants vm))
    | _, _ =>
      .union n (some (.enum (jstr "type") (some [jstr "A", jstr "B"])))
        (some [(jstr "A", [.bool (jstr "fieldA")]),
               (jstr "B", [.int (jstr "fieldB") (some 0) (some 100)])])
termination_by f => ((sizeOf f : Nat), (0 : Nat))
decreasing_by
  all_goals simp_wf
  · exact Prod.Lex.left _ _ (by omega)
  · exact Prod.Lex.left _ _ (by omega)
  · exact Prod.Lex.left _ _ (by omega)
  · exact Prod.Lex.left _ _ (by omega)

/-- Pointwise image of normalizeC2 over a field list. -/
def normalizeC2List : List FieldConfig → List FieldConfig
  | [] => []
  | f :: rest => normalizeC2 f :: normalizeC2List rest
termination_by l => ((sizeOf l : Nat), (0 : Nat))
decreasing_by
  all_goals simp_wf
  · exact Prod.Lex.left _ _ (by omega)
  · exact Prod.Lex.left _ _ (by omega)

/-- Pointwise image over the stored variants entries. -/
def normalizeC2Variants : List (Str × List FieldConfig) → List (Str × List FieldConfig)
  | [] => []
  | (k, fls) :: rest => (k, normalizeC2List fls) :: normalizeC2Variants rest
termination_by l => ((sizeOf l : Nat), (0 : Nat))
decreasing_by
  all_goals simp_wf
  · exact Prod.Lex.left _ _ (by omega)
  · exact Prod.Lex.left _ _ (by omega)

end

/-! ## Well-formedness predicates used as round-trip hypotheses -/

/-- A name survives the bit-packed round trip when it is nonempty (the
decoder's falsy fallback) and separator-free (the string table's join). -/
def nameOk (n : Str) : Bool :=
  !n.isEmpty && sepFree n

mutual

/-- Hypotheses of the amended bit-packed round trip: every name is nonempty
and separator-free, every interned option literal is separator-free, and
union discriminator options are duplicate-free (the decoder rebuilds the
variants record keyed by them). -/
def okC1 : FieldConfig → Bool
  | .bool n => nameOk n
  | .int n _ _ => nameOk n
  | .fixed n _ _ _ => nameOk n
  | .enum n opts => nameOk n && sepFreeTbl (opts.getD [])
  | .optional n w =>
    nameOk n &&
    match w with
    | some g => okC1 g
    | none => true
  | .array n _ _ w =>
    nameOk n &&
    match w with
    | some g => okC1 g
    | none => true
  | .enumArray n _ _ ef => nameOk n && sepFreeTbl ((ef.bind FieldConfig.optionsAttr).getD [])
  | .object n fs =>
    nameOk n &&
    match fs with
    | some l => okC1List l
    | none => true
  | .union n d v =>
    let dOpts := (d.bind FieldConfig.optionsAttr).getD []
    nameOk n && sepFreeTbl dOpts && nodupStr dOpts &&
    match v with
    | some vm => okC1Variants vm
    | none => true

/-- okC1 over a field list. -/
def okC1List : List FieldConfig → Bool
  | [] => true
  | f :: rest => okC1 f && okC1List rest

/-- okC1 over every stored variants entry. -/
def okC1Variants : List (Str × List FieldConfig) → Bool
  | [] => true
  | (_, fls) :: rest => okC1List fls && okC1Variants rest

end

mutual

/-- Hypotheses of the amended builder round trip: every nested enum-array
inner field and every union discriminator, where present, carries the enum
tag (the converter reads their options attribute, which only enum wire
fields have). -/
def okC2 : FieldConfig → Bool
  | .bool _ => true
  | .int _ _ _ => true
  | .fixed _ _ _ _ => true
  | .enum _ _ => true
  | .optional _ w =>
    match w with
    | some g => okC2 g
    | none => true
  | .array _ _ _ w =>
    match w with
    | some g => okC2 g
    | none => true
  | .enumArray _ _ _ ef =>
    match ef with
    | some g => g.isEnumKind
    | none => true
  | .object _ fs =>
    match fs with
    | some l => okC2List l
    | none => true
  | .union _ d v =>
    match d, v with
    | some dd, some vm => dd.isEnumKind && okC2Variants vm
    | _, _ => true

/-- okC2 over a field list. -/
def okC2List : List FieldConfig → Bool
  | [] => true
  | f :: rest => okC2 f && okC2List rest

/-- okC2 over every stored variants entry. -/
def okC2Variants : List (Str × List FieldConfig) → Bool
  | [] => true
  | (_, fls) :: rest => okC2List fls && okC2Variants rest

end

mutual

/-- The shape claim C10 checks on decoded configurations: every union
discriminator is an enum field named type, every enum-array inner field an
enum named item, recursively. -/
def okDecodedNames : FieldConfig → Bool
  | .bool _ => true
  | .int _ _ _ => true
  | .fixed _ _ _ _ => true
  | .enum _ _ => true
  | .optional _ w =>
    match w with
    | some g => okDecodedNames g
    | none => true
  | .array _ _ _ w =>
    match w with
    | some g => okDecodedNames g
    | none => true
  | .enumArray _ _ _ ef =>
    match ef with
    | some (.enum nm _) => nm = jstr "item"
    | _ => false
  | .object _ fs =>
    match fs with
    | some l => okDecodedNamesList l
    | none => true
  | .union _ d v =>
    (match d with
     | some (.enum nm _) => nm = jstr "type"
     | _ => false) &&
    (match v with
     | some vm => okDecodedNamesVariants vm
     | none => true)

/-- okDecodedNames over a field list. -/
def okDecodedNamesList : List FieldConfig → Bool
  | [] => true
  | f :: rest => okDecodedNames f && okDecodedNamesList rest

/-- okDecodedNames over every variants entry. -/
def okDecodedNamesVariants : List (Str × List FieldConfig) → Bool
  | [] => true
  | (_, fls) :: rest => okDecodedNamesList fls && okDecodedNamesVariants rest

end

/-! ## Default values (getDefaultValue of SchemaBuilder.tsx) -/

/-- A JavaScript value as the form builders produce them. -/
inductive Value where
  | vnull
  | vbool (b : Bool)
  | vnum (q : Rat)
  | vstr (s : Str)
  | varr (items : List Value)
  | vobj (entries : List (Str × Value))

mutual

/-- getDefaultValue of SchemaBuilder.tsx (the same function is repeated in
SchemaViewer.tsx): the canonical initial value of a configuration. The
union branch guards on the JavaScript truthiness of the first discriminator
option (if (firstOption)): an absent first option and the empty string both
fail the guard and fall through to the empty object. -/
def getDefaultValue : FieldConfig → Value
  | .bool _ => .vbool false
  | .int _ mn _ => .vnum (mn.getD 0)
  | .fixed _ mn _ _ => .vnum (mn.getD 0)
  | .enum _ opts => .vstr ((opts.bind List.head?).getD (jstr "option1"))
  | .optional _ _ => .vnull
  | .array _ _ _ _ => .varr []
  | .enumArray _ _ _ _ => .varr []
  | .object _ fs => .vobj (defaultEntries (fs.getD []) [])
  | .union _ d v =>
    match d, v with
    | some dd, some vm =>
      match dd.optionsAttr.bind List.head? with
      | some firstOpt =>
        if firstOpt = [] then .vobj []
        else .vobj (defaultEntries (lookupD vm firstOpt []) [(dd.name, .vstr firstOpt)])
      | none => .vobj []
    | _, _ => .vobj []
termination_by f => ((sizeOf f : Nat), (0 : Nat))
decreasing_by
  all_goals simp_wf
  · rename_i fs
    exact Prod.Lex.left _ _ (by cases fs <;> simp <;> omega)
  · have h : sizeOf (lookupD v firstOpt ([] : List FieldConfig)) ≤ sizeOf v := by
      induction v with
      | nil => simp [lookupD]
      | cons p r ih =>
        obtain ⟨k, w⟩ := p
        simp only [lookupD]
        split
        · simp
          omega
        · have := ih
          simp
          omega
    exact Prod.Lex.left _ _ (by omega)

/-- fields.forEach(f => obj[f.name] = getDefaultValue(f)) on a record
accumulator. -/
def defaultEntries : List FieldConfig → List (Str × Value) → List (Str × Value)
  | [], acc => acc
  | f :: rest, acc => defaultEntries rest (recordSet acc f.name (getDefaultValue f))
termination_by l _ => ((sizeOf l : Nat), (0 : Nat))
decreasing_by
  all_goals simp_wf
  · exact Prod.Lex.left _ _ (by omega)
  · exact Prod.Lex.left _ _ (by omega)

end

mutual

/-- Modelled from the spec: the defaultValue clause of the specification,
written from its words (Bool to false; Int and Fixed to the node's min;
Enum to its first option; Optional to null; Array and EnumArray to the
empty list; Object to a mapping recursing into every field under its name;
Union to a mapping seeded with the discriminator's name bound to its first
option plus the recursive defaults of that option's variant list). Where the
specification leaves a case undefined (a missing min, a missing or empty
option list, a missing discriminator or variants record) this function
returns null, so agreement with the code is only claimed under wfDefault. -/
def specDefaultValue : FieldConfig → Value
  | .bool _ => .vbool false
  | .int _ mn _ =>
    match mn with
    | some q => .vnum q
    | none => .vnull
  | .fixed _ mn _ _ =>
    match mn with
    | some q => .vnum q
    | none => .vnull
  | .enum _ opts =>
    match opts with
    | some (o :: _) => .vstr o
    | _ => .vnull
  | .optional _ _ => .vnull
  | .array _ _ _ _ => .varr []
  | .enumArray _ _ _ _ => .varr []
  | .object _ fs => .vobj (specDefaultEntries (fs.getD []) [])
  | .union _ d v =>
    match d, v with
    | some dd, some vm =>
      match dd.optionsAttr with
      | some (o :: _) => .vobj (specDefaultEntries (lookupD vm o []) [(dd.name, .vstr o)])
      | _ => .vnull
    | _, _ => .vnull
termination_by f => ((sizeOf f : Nat), (0 : Nat))
decreasing_by
  all_goals simp_wf
  · rename_i fs
    exact Prod.Lex.left _ _ (by cases fs <;> simp <;> omega)
  · have h : sizeOf (lookupD v o ([] : List FieldConfig)) ≤ sizeOf v := by
      induction v with
      | nil => simp [lookupD]
      | cons p r ih =>
        obtain ⟨k, w⟩ := p
        simp only [lookupD]
        split
        · simp
          omega
        · have := ih
          simp
          omega
    exact Prod.Lex.left _ _ (by omega)

/-- The spec's mapping builder: assign every field's default under its
name. -/
def specDefaultEntries : List FieldConfig → List (Str × Value) → List (Str × Value)
  | [], acc => acc
  | f :: rest, acc => specDefaultEntries rest (recordSet acc f.name (specDefaultValue f))
termination_by l _ => ((sizeOf l : Nat), (0 : Nat))
decreasing_by
  all_goals simp_wf
  · exact Prod.Lex.left _ _ (by omega)
  · exact Prod.Lex.left _ _ (by omega)

end

mutual

/-- The cases on which the specification pins down a default and the
source's guards pass: min present for int and fixed, a nonempty option
list for enums, and for a union a present enum discriminator whose first
option is a nonempty string (the code's if (firstOption) truthiness guard
rejects the empty string) plus a present variants record, recursively
through object fields and all variant lists. -/
def wfDefault : FieldConfig → Bool
  | .bool _ => true
  | .int _ mn _ => mn.isSome
  | .fixed _ mn _ _ => mn.isSome
  | .enum _ opts =>
    match opts with
    | some (_ :: _) => true
    | _ => false
  | .optional _ _ => true
  | .array _ _ _ _ => true
  | .enumArray _ _ _ _ => true
  | .object _ fs =>
    match fs with
    | some l => wfDefaultList l
    | none => true
  | .union _ d v =>
    match d, v with
    | some dd, some vm =>
      (match dd.optionsAttr with
       | some (o :: _) => !o.isEmpty
       | _ => false) && wfDefaultVariants vm
    | _, _ => false

/-- wfDefault over a field list. -/
def wfDefaultList : List FieldConfig → Bool
  | [] => true
  | f :: rest => wfDefault f && wfDefaultList rest

/-- wfDefault over every stored variants entry. -/
def wfDefaultVariants : List (Str × List FieldConfig) → Bool
  | [] => true
  | (_, fls) :: rest => wfDefaultList fls && wfDefaultVariants rest

end

/-! ## The schema-level bit-packed codec and its depth bound -/

/-- The structure handed to the external densing codec by
encodeSchemaToBase64: the version, the meta payloads and the encoded
string table. -/
structure MetaSchemaData where
  version : Nat
  fields : List MetaField
  strings : List Nat

/-- The fields.map loop of encodeSchemaToBase64: push each field's name,
then convert it, threading the string table. -/
def encodeFieldsLoop : List FieldConfig → List Str → List MetaField × List Str
  | [], s => ([], s)
  | f :: rest, s =>
    let s1 := s ++ [f.name]
    let (mf, s2) := fieldConfigToMetaFormat f s1
    let (mfs, s3) := encodeFieldsLoop rest s2
    (mf :: mfs, s3)

/-- encodeSchemaToBase64 of schema-codec.ts up to the external densing
call (modelled as a faithful transport of this structure): seed the table
with the schema name, convert every field, and encode the table. -/
def encodeSchemaMeta (schemaName : Str) (fields : List FieldConfig) : MetaSchemaData :=
  let (metaFields, strings) := encodeFieldsLoop fields [schemaName]
  ⟨1, metaFields, encodeStringTable strings⟩

/-- decodeSchemaFromBase64 of schema-codec.ts after the external undensing
call: decode the string table, read the schema name at index 0, and decode
every field payload. -/
def decodeSchemaMeta (d : MetaSchemaData) : Str × List FieldConfig :=
  let strings := decodeStringTable d.strings
  (strings.headD [], d.fields.map (fun mf => metaFormatToFieldConfig mf strings))

mutual

/-- Modelled from the spec: the recursion depth of a configuration as the
bounded-depth recursive union of meta-schema.ts counts it, one level per
nested node payload (the external createRecursiveUnion of densing, which
is not part of this repository, enforces the bound). -/
def configDepth : FieldConfig → Nat
  | .bool _ => 1
  | .int _ _ _ => 1
  | .fixed _ _ _ _ => 1
  | .enum _ _ => 1
  | .optional _ w =>
    match w with
    | some g => 1 + configDepth g
    | none => 1
  | .array _ _ _ w =>
    match w with
    | some g => 1 + configDepth g
    | none => 1
  | .enumArray _ _ _ _ => 1
  | .object _ fs =>
    match fs with
    | some l => 1 + configDepthList l
    | none => 1
  | .union _ _ v =>
    match v with
    | some vm => 1 + configDepthVariants vm
    | none => 1

/-- The deepest field of a list (0 for the empty list). -/
def configDepthList : List FieldConfig → Nat
  | [] => 0
  | f :: rest => max (configDepth f) (configDepthList rest)

/-- The deepest field of any stored variant list. -/
def configDepthVariants : List (Str × List FieldConfig) → Nat
  | [] => 0
  | (_, fls) :: rest => max (configDepthList fls) (configDepthVariants rest)

end

/-- The fixed maximum depth of the bit-packed meta schema, the literal 5
handed to createRecursiveUnion in meta-schema.ts. -/
def metaMaxDepth : Nat := 5

/-- Modelled from the spec: the DepthExceededError message, which must
state the configured bound. -/
def depthExceededMessage : String :=
  "DepthExceededError: field tree deeper than the bit-packed maximum depth " ++
    toString metaMaxDepth

/-- Modelled from the spec: the bit-packed encode with the depth bound of
the wire schema enforced before encoding, rejecting a tree one of whose
roots is nested deeper than metaMaxDepth. -/
def encodeSchemaMetaChecked (schemaName : Str) (fields : List FieldConfig) :
    Except String MetaSchemaData :=
  if fields.all (fun f => configDepth f ≤ metaMaxDepth) then
    .ok (encodeSchemaMeta schemaName fields)
  else .error depthExceededMessage

/-! ## The compressed text codec (schema-codec-zstd.ts), parameterised over
the external compressor and the JSON serialisation -/

/-- encodeSchemaToBase64 of schema-codec-zstd.ts: serialise the name and
fields pair (JSON.stringify plus TextEncoder, the parameter serialize),
compress with the external zstd instance (the parameter compress), and
base64url-encode the compressed bytes. -/
def encodeSchemaZstd {α : Type} (compress : List Nat → List Nat)
    (serialize : Str × α → List Nat) (p : Str × α) : List Nat :=
  base64UrlEncode (compress (serialize p))

/-- decodeSchemaFromBase64 of schema-codec-zstd.ts: base64url-decode,
decompress, and parse the name and fields back out. -/
def decodeSchemaZstd {α : Type} (decompress : List Nat → List Nat)
    (deserialize : List Nat → Str × α) (token : List Nat) : Str × α :=
  deserialize (decompress (base64UrlDecode token))

/-! ## The lazily initialised compressor instance (getZstdSimple) as a
small interleaving model -/

/-- Where one caller of getZstdSimple stands: before the null check, past
the null check and awaiting the ZstdCodec.run promise, or finished holding
an instance. The code between two awaits runs atomically on the JavaScript
event loop, so these are exactly the observable stopping points. -/
inductive CallerPhase where
  | ready
  | initing
  | done (inst : Nat)
  deriving DecidableEq

/-- The module state of schema-codec-zstd.ts: the zstdSimple cache and how
many zstd.Simple instances have been constructed so far (instances are
numbered in creation order). -/
structure ZstdState where
  cache : Option Nat
  created : Nat
  deriving DecidableEq

/-- One atomic segment of getZstdSimple for one caller: a ready caller
reads the cache and either finishes with the cached instance or, finding
it null, starts initialising; an initialising caller's promise resolves,
constructing a fresh instance and writing it to the cache. The cache is
only assigned after the await resolves, which is the pending-initialisation
gap the claim is about. -/
def zstdStep (s : ZstdState) (ph : CallerPhase) : ZstdState × CallerPhase :=
  match ph with
  | .ready =>
    match s.cache with
    | some v => (s, .done v)
    | none => (s, .initing)
  | .initing => (⟨some s.created, s.created + 1⟩, .done s.created)
  | .done v => (s, .done v)

/-- Run a schedule: each entry names the caller that runs its next atomic
segment (an out-of-range entry is a no-op). -/
def runSched : ZstdState → List CallerPhase → List Nat → ZstdState × List CallerPhase
  | s, phs, [] => (s, phs)
  | s, phs, i :: rest =>
    match phs[i]? with
    | some ph =>
      let (s2, ph2) := zstdStep s ph
      runSched s2 (phs.set i ph2) rest
    | none => runSched s phs rest

/-- Claim C9 as a proposition over the model: whatever the interleaving of
two first callers, at most one compressor instance is ever created. -/
def zstdSingletonClaim : Prop :=
  ∀ sched : List Nat,
    (runSched ⟨none, 0⟩ [CallerPhase.ready, CallerPhase.ready] sched).1.created ≤ 1

/-- The simulation invariant of the base64url round trip, taken between
whole input bytes: the encoder buffers ebc bits (0, 2 or 4, cycling with
each byte) and the decoder, having consumed every emitted symbol, either is
fully aligned or still owes the one byte p whose high bits sit in its
buffer while the encoder's buffer holds p's low bits. -/
def Sync (ebits ebc dbits dbc : Nat) (pend : List Nat) : Prop :=
  (ebc = 0 ∧ dbc = 0 ∧ pend = []) ∨
  (∃ p, p < 256 ∧ ebc = 2 ∧ dbc = 6 ∧ ebits % 4 = p % 4 ∧ dbits % 64 = p / 4 ∧ pend = [p]) ∨
  (∃ p, p < 256 ∧ ebc = 4 ∧ dbc = 4 ∧ ebits % 16 = p % 16 ∧ dbits % 16 = p / 16 ∧ pend = [p])

/-! # Theorems

Helper lemmas first, then one theorem per claim (with its witness and
counterexample where the claim calls for them). -/

/-! ## Table extension -/

theorem tblPref_refl (s : List Str) : TblPref s s :=
  ⟨[], List.append_nil s⟩

theorem tblPref_append (s r : List Str) : TblPref s (s ++ r) :=
  ⟨r, rfl⟩

theorem tblPref_trans {a b c : List Str} (h1 : TblPref a b) (h2 : TblPref b c) :
    TblPref a c := by
  obtain ⟨r1, rfl⟩ := h1
  obtain ⟨r2, rfl⟩ := h2
  exact ⟨r1 ++ r2, by simp⟩

theorem tblPref_lookup {s t : List Str} {i : Nat} {x : Str}
    (hp : TblPref s t) (hx : s[i]? = some x) : t[i]? = some x := by
  obtain ⟨r, rfl⟩ := hp
  have hi : i < s.length := by
    by_contra hge
    simp [List.getElem?_eq_none (Nat.le_of_not_lt hge)] at hx
  rw [List.getElem?_append_left hi]
  exact hx

/-! ## The string table -/

theorem sepFree_iff (s : Str) : sepFree s = true ↔ sepCode ∉ s := by
  induction s with
  | nil => simp [sepFree]
  | cons c rest ih =>
    simp only [sepFree, Bool.and_eq_true, bne_iff_ne, ih, List.mem_cons, not_or]
    constructor
    · rintro ⟨h1, h2⟩
      exact ⟨fun he => h1 he.symm, h2⟩
    · rintro ⟨h1, h2⟩
      exact ⟨fun he => h1 he.symm, h2⟩

theorem sepFreeTbl_iff (t : List Str) : sepFreeTbl t = true ↔ ∀ s ∈ t, sepFree s = true := by
  induction t with
  | nil => simp [sepFreeTbl]
  | cons s rest ih => simp [sepFreeTbl, ih]

theorem sepFreeTbl_append (a b : List Str) :
    sepFreeTbl (a ++ b) = (sepFreeTbl a && sepFreeTbl b) := by
  induction a with
  | nil => simp [sepFreeTbl]
  | cons s rest ih => simp [sepFreeTbl, ih, Bool.and_assoc]

theorem splitSep_of_sepFree {s : Str} (h : sepFree s = true) : splitSep s = [s] := by
  induction s with
  | nil => rfl
  | cons c rest ih =>
    simp only [sepFree, Bool.and_eq_true, bne_iff_ne] at h
    simp only [splitSep, ih h.2, if_neg h.1]
    rfl

theorem splitSep_ne_nil (l : List Nat) : splitSep l ≠ [] := by
  cases l with
  | nil => simp [splitSep]
  | cons c rest =>
    simp only [splitSep]
    split <;> simp

theorem splitSep_append {s : Str} (r : List Nat) (h : sepFree s = true) :
    splitSep (s ++ sepCode :: r) = s :: splitSep r := by
  induction s with
  | nil => simp [splitSep]
  | cons c rest ih =>
    simp only [sepFree, Bool.and_eq_true, bne_iff_ne] at h
    rw [List.cons_append]
    simp only [splitSep]
    rw [ih h.2, if_neg h.1]
    simp

/-- The table round trip that holds: a nonempty table of separator-free
strings is recovered exactly. -/
theorem tableRoundTrip {t : List Str} (hne : t ≠ []) (h : sepFreeTbl t = true) :
    decodeStringTable (encodeStringTable t) = t := by
  induction t with
  | nil => exact absurd rfl hne
  | cons s rest ih =>
    simp only [sepFreeTbl, Bool.and_eq_true] at h
    match rest, ih with
    | [], _ =>
      simpa [decodeStringTable, encodeStringTable, joinSep] using splitSep_of_sepFree h.1
    | r :: rest, ih =>
      have htail := ih (by simp) h.2
      simp only [decodeStringTable, encodeStringTable, joinSep] at htail ⊢
      rw [splitSep_append _ h.1, htail]

/-! ## indexOfStr and getStringIndex -/

theorem indexOfStr_none {α : Type} [DecidableEq α] {l : List α} {a : α} :
    indexOfStr l a = none ↔ a ∉ l := by
  induction l with
  | nil => simp [indexOfStr]
  | cons x rest ih =>
    by_cases hx : x = a
    · simp [indexOfStr, hx]
    · simp [indexOfStr, hx, Option.map_eq_none, ih, Ne.symm hx]

theorem indexOfStr_some {α : Type} [DecidableEq α] {l : List α} {a : α} {i : Nat}
    (h : indexOfStr l a = some i) :
    l[i]? = some a ∧ ∀ j, j < i → l[j]? ≠ some a := by
  induction l generalizing i with
  | nil => simp [indexOfStr] at h
  | cons x rest ih =>
    simp only [indexOfStr] at h
    by_cases hx : x = a
    · simp only [if_pos hx, Option.some.injEq] at h
      subst h
      simp [hx]
    · rw [if_neg hx] at h
      cases hmap : indexOfStr rest a with
      | none => rw [hmap] at h; simp at h
      | some i0 =>
        rw [hmap] at h
        simp at h
        subst h
        obtain ⟨h1, h2⟩ := ih hmap
        constructor
        · simpa using h1
        · intro j hj
          cases j with
          | zero => simpa using hx
          | succ j => simpa using h2 j (by omega)

theorem getStringIndex_pref (s : List Str) (x : Str) : TblPref s (getStringIndex s x).2 := by
  simp only [getStringIndex]
  cases h : indexOfStr s x with
  | some i => exact tblPref_refl s
  | none => exact tblPref_append s [x]

theorem getStringIndex_resolve (s : List Str) (x : Str) :
    (getStringIndex s x).2[(getStringIndex s x).1]? = some x := by
  simp only [getStringIndex]
  cases h : indexOfStr s x with
  | some i => exact (indexOfStr_some h).1
  | none => simp

theorem getStringIndex_sepFree {s : List Str} {x : Str}
    (hs : sepFreeTbl s = true) (hx : sepFree x = true) :
    sepFreeTbl (getStringIndex s x).2 = true := by
  simp only [getStringIndex]
  cases h : indexOfStr s x with
  | some i => exact hs
  | none => simp [sepFreeTbl_append, hs, sepFreeTbl, hx]

theorem internList_pref (xs : List Str) (s : List Str) : TblPref s (internList xs s).2 := by
  induction xs generalizing s with
  | nil => exact tblPref_refl s
  | cons x rest ih =>
    simp only [internList]
    exact tblPref_trans (getStringIndex_pref s x) (ih (getStringIndex s x).2)

theorem internList_sepFree {xs s : List Str}
    (hxs : sepFreeTbl xs = true) (hs : sepFreeTbl s = true) :
    sepFreeTbl (internList xs s).2 = true := by
  induction xs generalizing s with
  | nil => exact hs
  | cons x rest ih =>
    simp only [sepFreeTbl, Bool.and_eq_true] at hxs
    simp only [internList]
    exact ih hxs.2 (getStringIndex_sepFree hs hxs.1)

theorem internList_resolve (xs : List Str) (s : List Str) :
    ∀ t, TblPref (internList xs s).2 t →
      (internList xs s).1.map (resolveStr t) = xs := by
  induction xs generalizing s with
  | nil => intro t _; rfl
  | cons x rest ih =>
    intro t ht
    simp only [internList] at ht ⊢
    have hx : t[(getStringIndex s x).1]? = some x :=
      tblPref_lookup
        (tblPref_trans (internList_pref rest (getStringIndex s x).2) ht)
        (getStringIndex_resolve s x)
    have h1 : resolveStr t (getStringIndex s x).1 = x := by simp [resolveStr, hx]
    simp only [List.map_cons, h1, ih (getStringIndex s x).2 t ht]

/-! ## Claim C3 (string table round trip) -/

/-- C3 (amended): for every nonempty string table none of whose entries
contains the separator bar, decodeStringTable inverts encodeStringTable
exactly, preserving length, contents and index assignment. The source
performs no rejection or escaping, so the separator-freedom is a
precondition, not a guarantee. -/
theorem encodeDecodeStringTable_amended (t : List Str) (hne : t ≠ [])
    (hsep : ∀ s ∈ t, sepFree s = true) :
    decodeStringTable (encodeStringTable t) = t :=
  tableRoundTrip hne ((sepFreeTbl_iff t).mpr hsep)

/-- Witness for C3's amended round trip at a concrete two-entry table. -/
theorem encodeDecodeStringTable_amended_witness :
    decodeStringTable (encodeStringTable [jstr "name", jstr "ab"]) = [jstr "name", jstr "ab"] :=
  encodeDecodeStringTable_amended [jstr "name", jstr "ab"] (by decide) (by decide)

/-- Counterexample to C3 as stated: a stored string containing the
separator is not rejected or escaped, and the round trip returns a
different table (the string is split in two). -/
theorem encodeDecodeStringTable_counterexample :
    decodeStringTable (encodeStringTable [jstr "a|b"]) = [jstr "a", jstr "b"] ∧
    decodeStringTable (encodeStringTable [jstr "a|b"]) ≠ [jstr "a|b"] := by
  decide

/-! ## Claim C8 (getStringIndex) -/

/-- C8: getStringIndex returns the index of the first occurrence of an
existing entry and leaves the table untouched; a new string is appended at
index equal to the previous length. In both cases the returned index holds
the string afterwards and every previously present entry keeps its value
and index. -/
theorem getStringIndex_spec (strings : List Str) (s : Str) :
    (getStringIndex strings s).2[(getStringIndex strings s).1]? = some s
    ∧ (∀ j, j < strings.length → (getStringIndex strings s).2[j]? = strings[j]?)
    ∧ (s ∈ strings →
        (getStringIndex strings s).2 = strings ∧
        strings[(getStringIndex strings s).1]? = some s ∧
        ∀ j, j < (getStringIndex strings s).1 → strings[j]? ≠ some s)
    ∧ (s ∉ strings →
        (getStringIndex strings s).1 = strings.length ∧
        (getStringIndex strings s).2 = strings ++ [s]) := by
  refine ⟨getStringIndex_resolve strings s, ?_, ?_, ?_⟩
  · intro j hj
    obtain ⟨r, hr⟩ := getStringIndex_pref strings s
    rw [← hr, List.getElem?_append_left hj]
  · intro hmem
    simp only [getStringIndex]
    cases h : indexOfStr strings s with
    | some i =>
      obtain ⟨h1, h2⟩ := indexOfStr_some h
      exact ⟨rfl, h1, h2⟩
    | none => exact absurd hmem (indexOfStr_none.mp h)
  · intro hmem
    simp only [getStringIndex]
    cases h : indexOfStr strings s with
    | some i =>
      obtain ⟨h1, _⟩ := indexOfStr_some h
      exact absurd (List.getElem?_mem h1) hmem
    | none => exact ⟨rfl, rfl⟩

/-! ## The base64url accumulator -/

theorem and63 (x : Nat) : x &&& 63 = x % 64 := by
  have h := Nat.and_pow_two_sub_one_eq_mod x 6
  norm_num at h
  exact h

theorem and255 (x : Nat) : x &&& 255 = x % 256 := by
  have h := Nat.and_pow_two_sub_one_eq_mod x 8
  norm_num at h
  exact h

theorem lor_eq_add {k a b : Nat} (ha : a % 2 ^ k = 0) (hb : b < 2 ^ k) :
    a ||| b = a + b := by
  obtain ⟨q, rfl⟩ : ∃ q, a = 2 ^ k * q :=
    ⟨a / 2 ^ k, (Nat.mul_div_cancel' (Nat.dvd_of_mod_eq_zero ha)).symm⟩
  apply Nat.eq_of_testBit_eq
  intro i
  rw [Nat.testBit_lor]
  rcases Nat.lt_or_ge i k with hik | hik
  · have h1 : Nat.testBit (2 ^ k * q) i = false := by
      rw [Nat.mul_comm, ← Nat.shiftLeft_eq, Nat.testBit_shiftLeft]
      simp [Nat.not_le.mpr hik]
    have h2 : Nat.testBit (2 ^ k * q + b) i = Nat.testBit b i := by
      rw [Nat.testBit_to_div_mod, Nat.testBit_to_div_mod]
      have hsplit : (2 : Nat) ^ k = 2 ^ i * 2 ^ (k - i) := by
        rw [← pow_add]
        congr 1
        omega
      have hdiv : (2 ^ k * q + b) / 2 ^ i = 2 ^ (k - i) * q + b / 2 ^ i := by
        rw [hsplit, Nat.mul_assoc]
        exact Nat.mul_add_div (Nat.two_pow_pos i) _ _
      rw [hdiv]
      have heven : 2 ^ (k - i) * q % 2 = 0 := by
        have hm : (2 : Nat) ^ (k - i) = 2 * 2 ^ (k - i - 1) := by
          rw [← pow_succ']
          congr 1
          omega
        rw [hm, Nat.mul_assoc]
        exact Nat.mul_mod_right 2 _
      rw [decide_eq_decide]
      omega
    rw [h1, h2]
    simp
  · have hb2 : b < 2 ^ i := lt_of_lt_of_le hb (Nat.pow_le_pow_right (by norm_num) hik)
    have h1 : Nat.testBit b i = false := Nat.testBit_eq_false_of_lt hb2
    have h2 : Nat.testBit (2 ^ k * q) i = Nat.testBit q (i - k) := by
      rw [Nat.mul_comm, ← Nat.shiftLeft_eq, Nat.testBit_shiftLeft]
      simp [hik]
    have h3 : Nat.testBit (2 ^ k * q + b) i = Nat.testBit q (i - k) := by
      rw [Nat.testBit_to_div_mod, Nat.testBit_to_div_mod]
      have hsplit : (2 : Nat) ^ i = 2 ^ k * 2 ^ (i - k) := by
        rw [← pow_add]
        congr 1
        omega
      rw [hsplit, ← Nat.div_div_eq_div_mul, Nat.mul_add_div (Nat.two_pow_pos k),
        Nat.div_eq_of_lt hb, Nat.add_zero]
    rw [h1, h2, h3]
    simp

theorem charToValue_b64char : ∀ v, v < 64 → charToValue (b64char v) = some v := by
  decide

theorem emitLoop_eq (bits bc : Nat) (out : List Nat) :
    emitLoop bits bc out =
      if 6 ≤ bc then
        emitLoop bits (bc - 6) (out ++ [b64char ((bits >>> (bc - 6)) &&& 63)])
      else (bits, bc, out) := by
  rw [emitLoop]

theorem emitLoop_small {bits bc : Nat} {out : List Nat} (h : bc < 6) :
    emitLoop bits bc out = (bits, bc, out) := by
  rw [emitLoop_eq, if_neg (by omega)]

theorem emitLoop_mid {bits bc : Nat} {out : List Nat} (h6 : 6 ≤ bc) (h12 : bc < 12) :
    emitLoop bits bc out = (bits, bc - 6, out ++ [b64char ((bits >>> (bc - 6)) &&& 63)]) := by
  rw [emitLoop_eq, if_pos h6, emitLoop_small (by omega)]

theorem emitLoop_big {bits bc : Nat} {out : List Nat} (h12 : 12 ≤ bc) (h18 : bc < 18) :
    emitLoop bits bc out =
      (bits, bc - 12,
        out ++ [b64char ((bits >>> (bc - 6)) &&& 63), b64char ((bits >>> (bc - 12)) &&& 63)]) := by
  have h : bc - 6 - 6 = bc - 12 := by omega
  rw [emitLoop_eq, if_pos (by omega), emitLoop_mid (by omega) (by omega), h]
  simp

theorem emitLoop_out : ∀ (bc bits : Nat) (out : List Nat),
    emitLoop bits bc out =
      ((emitLoop bits bc []).1, (emitLoop bits bc []).2.1,
        out ++ (emitLoop bits bc []).2.2) := by
  intro bc
  induction bc using Nat.strong_induction_on with
  | _ bc ih =>
    intro bits out
    by_cases h : 6 ≤ bc
    · rw [emitLoop_eq bits bc out, if_pos h, emitLoop_eq bits bc [], if_pos h,
        ih (bc - 6) (by omega) bits (out ++ [b64char ((bits >>> (bc - 6)) &&& 63)]),
        ih (bc - 6) (by omega) bits ([] ++ [b64char ((bits >>> (bc - 6)) &&& 63)])]
      simp
    · rw [emitLoop_small (by omega), emitLoop_small (by omega)]
      simp

theorem foldl_encOne_out : ∀ (bytes : List Nat) (bits bc : Nat) (out : List Nat),
    bytes.foldl encOne (bits, bc, out) =
      ((bytes.foldl encOne (bits, bc, [])).1,
       (bytes.foldl encOne (bits, bc, [])).2.1,
       out ++ (bytes.foldl encOne (bits, bc, [])).2.2) := by
  intro bytes
  induction bytes with
  | nil =>
    intro bits bc out
    simp
  | cons b rest ih =>
    intro bits bc out
    rcases hx : encOne (bits, bc, []) b with ⟨E1, E2, EC⟩
    have hchars : encOne (bits, bc, out) b = (E1, E2, out ++ EC) := by
      have h := emitLoop_out (bc + 8) (wrap32 (bits <<< 8) ||| b) out
      simp only [encOne] at hx ⊢
      rw [h, hx]
    simp only [List.foldl_cons, hchars, hx]
    rw [ih E1 E2 (out ++ EC), ih E1 E2 EC]
    simp

theorem lor_add_256 {a b : Nat} (ha : a % 256 = 0) (hb : b < 256) : a ||| b = a + b :=
  lor_eq_add (k := 8) (by norm_num [ha]) (by norm_num [hb])

theorem lor_add_64 {a b : Nat} (ha : a % 64 = 0) (hb : b < 64) : a ||| b = a + b :=
  lor_eq_add (k := 6) (by norm_num [ha]) (by norm_num [hb])

/-- The accumulation step of the encoder loop in arithmetic form. -/
theorem accum8 {eb b : Nat} (hb : b < 256) :
    wrap32 (eb <<< 8) ||| b = eb * 256 % 4294967296 + b := by
  have h1 : wrap32 (eb <<< 8) = eb * 256 % 4294967296 := by
    simp [wrap32, Nat.shiftLeft_eq]
  rw [h1, lor_add_256 (by omega) hb]

/-- The accumulation step of the decoder loop in arithmetic form. -/
theorem accum6 {db v : Nat} (hv : v < 64) :
    wrap32 (db <<< 6) ||| v = db * 64 % 4294967296 + v := by
  have h1 : wrap32 (db <<< 6) = db * 64 % 4294967296 := by
    simp [wrap32, Nat.shiftLeft_eq]
  rw [h1, lor_add_64 (by omega) hv]

theorem shr_and63 (x k : Nat) : (x >>> k) &&& 63 = x / 2 ^ k % 64 := by
  rw [Nat.shiftRight_eq_div_pow, and63]

theorem shr_and255 (x k : Nat) : (x >>> k) &&& 255 = x / 2 ^ k % 256 := by
  rw [Nat.shiftRight_eq_div_pow, and255]

/-- One byte through the encoder from an empty buffer (2 leftover bits). -/
theorem byteStep0 {eb b : Nat} (hb : b < 256) :
    encOne (eb, 0, ([] : List Nat)) b =
      (eb * 256 % 4294967296 + b, 2, [b64char (b / 4)]) := by
  simp only [encOne, accum8 hb, Nat.zero_add]
  rw [emitLoop_mid (by omega) (by omega)]
  have harg : (eb * 256 % 4294967296 + b) / 4 % 64 = b / 4 := by omega
  norm_num [shr_and63, harg]

/-- One byte through the encoder from a 2-bit buffer (4 leftover bits). -/
theorem byteStep2 {eb b : Nat} (hb : b < 256) :
    encOne (eb, 2, ([] : List Nat)) b =
      (eb * 256 % 4294967296 + b, 4, [b64char (eb % 4 * 16 + b / 16)]) := by
  simp only [encOne, accum8 hb]
  rw [emitLoop_mid (by omega) (by omega)]
  have harg : (eb * 256 % 4294967296 + b) / 16 % 64 = eb % 4 * 16 + b / 16 := by omega
  norm_num [shr_and63, harg]

/-- One byte through the encoder from a 4-bit buffer (two symbols out). -/
theorem byteStep4 {eb b : Nat} (hb : b < 256) :
    encOne (eb, 4, ([] : List Nat)) b =
      (eb * 256 % 4294967296 + b, 0,
        [b64char (eb % 16 * 4 + b / 64), b64char (b % 64)]) := by
  simp only [encOne, accum8 hb]
  rw [emitLoop_big (by omega) (by omega)]
  have h1 : (eb * 256 % 4294967296 + b) / 64 % 64 = eb % 16 * 4 + b / 64 := by omega
  have h2 : (eb * 256 % 4294967296 + b) % 64 = b % 64 := by omega
  norm_num [Nat.shiftRight_eq_div_pow, and63, h1, h2]

/-- One in-alphabet character through the decoder without a byte coming
out (fewer than 8 bits buffered). -/
theorem decOne_noEmit {db dc v : Nat} {dout : List Nat} (hv : v < 64) (hlt : dc + 6 < 8) :
    decOne (db, dc, dout) (b64char v) = (db * 64 % 4294967296 + v, dc + 6, dout) := by
  simp only [decOne, charToValue_b64char v hv, accum6 hv]
  rw [if_neg (by omega)]

/-- One in-alphabet character through the decoder with a byte coming out
(at least 8 bits buffered afterwards). -/
theorem decOne_emit {db dc v : Nat} {dout : List Nat} (hv : v < 64) (hge : 8 ≤ dc + 6) :
    decOne (db, dc, dout) (b64char v) =
      (db * 64 % 4294967296 + v, dc - 2,
        dout ++ [(db * 64 % 4294967296 + v) / 2 ^ (dc - 2) % 256]) := by
  simp only [decOne, charToValue_b64char v hv, accum6 hv]
  rw [if_pos (by omega)]
  have h1 : dc + 6 - 8 = dc - 2 := by omega
  rw [h1, shr_and255]

/-- The decoder skips characters outside the alphabet. -/
theorem decOne_skip {st : Nat × Nat × List Nat} {c : Nat}
    (hc : charToValue c = none) : decOne st c = st := by
  simp only [decOne, hc]

/-- The simulation of the decoder against the encoder, whole byte by whole
byte: from synchronised states, running any byte list through the encoder
and feeding every emitted symbol to the decoder lands in synchronised
states again, with the decoder's output trailing by exactly the pending
byte of the invariant. -/
theorem b64_run : ∀ (bytes : List Nat), (∀ x ∈ bytes, x < 256) →
    ∀ ebits ebc dbits dbc (dout : List Nat) pend, Sync ebits ebc dbits dbc pend →
    ∃ pend2,
      Sync (bytes.foldl encOne (ebits, ebc, ([] : List Nat))).1
        (bytes.foldl encOne (ebits, ebc, ([] : List Nat))).2.1
        (((bytes.foldl encOne (ebits, ebc, ([] : List Nat))).2.2).foldl decOne
          (dbits, dbc, dout)).1
        (((bytes.foldl encOne (ebits, ebc, ([] : List Nat))).2.2).foldl decOne
          (dbits, dbc, dout)).2.1
        pend2 ∧
      (((bytes.foldl encOne (ebits, ebc, ([] : List Nat))).2.2).foldl decOne
          (dbits, dbc, dout)).2.2 ++ pend2
        = dout ++ pend ++ bytes := by
  intro bytes
  induction bytes with
  | nil =>
    intro _ ebits ebc dbits dbc dout pend hs
    exact ⟨pend, by simpa using hs, by simp⟩
  | cons b rest ih =>
    intro hball ebits ebc dbits dbc dout pend hs
    have hb : b < 256 := hball b (by simp)
    have hrest : ∀ x ∈ rest, x < 256 := fun x hx => hball x (by simp [hx])
    rcases hs with ⟨he, hd, hp⟩ | ⟨p, hplt, he, hd, heb, hdb, hp⟩ |
      ⟨p, hplt, he, hd, heb, hdb, hp⟩
    · subst he
      subst hd
      subst hp
      simp only [List.foldl_cons, byteStep0 hb]
      rw [foldl_encOne_out rest _ 2 [b64char (b / 4)]]
      simp only [List.foldl_append, List.foldl_cons, List.foldl_nil]
      rw [decOne_noEmit (by omega) (by omega)]
      have hsync2 : Sync (ebits * 256 % 4294967296 + b) 2
          (dbits * 64 % 4294967296 + b / 4) 6 [b] :=
        Or.inr (Or.inl ⟨b, hb, rfl, rfl, by omega, by omega, rfl⟩)
      obtain ⟨pend2, hS, hout⟩ := ih hrest _ 2 _ 6 dout [b] hsync2
      exact ⟨pend2, hS, by simpa using hout⟩
    · subst he
      subst hd
      subst hp
      simp only [List.foldl_cons, byteStep2 hb]
      rw [foldl_encOne_out rest _ 4 [b64char (ebits % 4 * 16 + b / 16)]]
      simp only [List.foldl_append, List.foldl_cons, List.foldl_nil]
      rw [decOne_emit (by omega) (by omega)]
      have hemit : (dbits * 64 % 4294967296 + (ebits % 4 * 16 + b / 16)) / 2 ^ (6 - 2) % 256
          = p := by
        norm_num
        omega
      rw [hemit]
      have hsync2 : Sync (ebits * 256 % 4294967296 + b) 4
          (dbits * 64 % 4294967296 + (ebits % 4 * 16 + b / 16)) 4 [b] :=
        Or.inr (Or.inr ⟨b, hb, rfl, by omega, by omega, by omega, rfl⟩)
      obtain ⟨pend2, hS, hout⟩ := ih hrest _ 4 _ 4 (dout ++ [p]) [b] hsync2
      refine ⟨pend2, hS, ?_⟩
      rw [hout]
      simp
    · subst he
      subst hd
      subst hp
      simp only [List.foldl_cons, byteStep4 hb]
      rw [foldl_encOne_out rest _ 0
        [b64char (ebits % 16 * 4 + b / 64), b64char (b % 64)]]
      simp only [List.foldl_append, List.foldl_cons, List.foldl_nil]
      have hc1 : decOne (dbits, 4, dout) (b64char (ebits % 16 * 4 + b / 64)) =
          (dbits * 64 % 4294967296 + (ebits % 16 * 4 + b / 64), 2, dout ++ [p]) := by
        rw [decOne_emit (by omega) (by omega)]
        have hemit1 : (dbits * 64 % 4294967296 + (ebits % 16 * 4 + b / 64)) / 2 ^ (4 - 2) % 256
            = p := by
          norm_num
          omega
        rw [hemit1]
      rw [hc1]
      have hc2 : decOne (dbits * 64 % 4294967296 + (ebits % 16 * 4 + b / 64), 2, dout ++ [p])
          (b64char (b % 64)) =
          ((dbits * 64 % 4294967296 + (ebits % 16 * 4 + b / 64)) * 64 % 4294967296 + b % 64,
            0, dout ++ [p] ++ [b]) := by
        rw [decOne_emit (by omega) (by omega)]
        have hemit2 : ((dbits * 64 % 4294967296 + (ebits % 16 * 4 + b / 64)) * 64 % 4294967296
            + b % 64) / 2 ^ (2 - 2) % 256 = b := by
          norm_num
          omega
        rw [hemit2]
      rw [hc2]
      have hsync2 : Sync (ebits * 256 % 4294967296 + b) 0
          ((dbits * 64 % 4294967296 + (ebits % 16 * 4 + b / 64)) * 64 % 4294967296 + b % 64)
          0 [] :=
        Or.inl ⟨rfl, rfl, rfl⟩
      obtain ⟨pend2, hS, hout⟩ := ih hrest _ 0 _ 0 (dout ++ [p] ++ [b]) [] hsync2
      refine ⟨pend2, hS, ?_⟩
      rw [hout]
      simp

/-- Decoding the encoder's final flushed symbol recovers exactly the
pending byte of the invariant. -/
theorem b64_finish {ebits ebc dbits dbc : Nat} {pend : List Nat} (dout : List Nat)
    (hs : Sync ebits ebc dbits dbc pend) :
    ((if 0 < ebc then [b64char (wrap32 (ebits <<< (6 - ebc)) &&& 63)] else []).foldl
        decOne (dbits, dbc, dout)).2.2 = dout ++ pend := by
  rcases hs with ⟨he, hd, hp⟩ | ⟨p, hplt, he, hd, heb, hdb, hp⟩ |
    ⟨p, hplt, he, hd, heb, hdb, hp⟩
  · subst he
    subst hd
    subst hp
    simp
  · subst he
    subst hd
    subst hp
    rw [if_pos (by omega)]
    have hv : wrap32 (ebits <<< (6 - 2)) &&& 63 = p % 4 * 16 := by
      norm_num [wrap32, Nat.shiftLeft_eq, and63]
      omega
    rw [hv]
    simp only [List.foldl_cons, List.foldl_nil]
    rw [decOne_emit (by omega) (by omega)]
    have hemit : (dbits * 64 % 4294967296 + p % 4 * 16) / 2 ^ (6 - 2) % 256 = p := by
      norm_num
      omega
    rw [hemit]
  · subst he
    subst hd
    subst hp
    rw [if_pos (by omega)]
    have hv : wrap32 (ebits <<< (6 - 4)) &&& 63 = p % 16 * 4 := by
      norm_num [wrap32, Nat.shiftLeft_eq, and63]
      omega
    rw [hv]
    simp only [List.foldl_cons, List.foldl_nil]
    rw [decOne_emit (by omega) (by omega)]
    have hemit : (dbits * 64 % 4294967296 + p % 16 * 4) / 2 ^ (4 - 2) % 256 = p := by
      norm_num
      omega
    rw [hemit]

/-- The base64url round trip over byte sequences. -/
theorem b64_roundTrip {bytes : List Nat} (hb : ∀ x ∈ bytes, x < 256) :
    base64UrlDecode (base64UrlEncode bytes) = bytes := by
  obtain ⟨pend2, hS, hout⟩ := b64_run bytes hb 0 0 0 0 [] [] (Or.inl ⟨rfl, rfl, rfl⟩)
  simp only [base64UrlEncode, base64UrlDecode]
  by_cases h : 0 < (bytes.foldl encOne (0, 0, ([] : List Nat))).2.1
  · rw [if_pos h, List.foldl_append]
    have hfin := b64_finish
      ((bytes.foldl encOne (0, 0, ([] : List Nat))).2.2.foldl decOne (0, 0, [])).2.2 hS
    rw [if_pos h] at hfin
    rw [hfin]
    simpa using hout
  · rw [if_neg h]
    have hfin := b64_finish
      ((bytes.foldl encOne (0, 0, ([] : List Nat))).2.2.foldl decOne (0, 0, [])).2.2 hS
    rw [if_neg h] at hfin
    simp only [List.foldl_nil] at hfin
    have hlen := congrArg List.length hfin
    simp only [List.length_append] at hlen
    have hnil : pend2 = [] := by
      have : pend2.length = 0 := by omega
      simpa using this
    subst hnil
    simpa using hout

theorem b64char_mem {v : Nat} (hv : v < 64) : b64char v ∈ base64urlChars := by
  have hlen : base64urlChars.length = 64 := by decide
  rw [b64char, List.getD_eq_getElem base64urlChars 0 (by omega)]
  exact List.getElem_mem _

theorem emitLoop_chars : ∀ (bc bits : Nat) (out : List Nat),
    (∀ c ∈ out, c ∈ base64urlChars) →
    ∀ c ∈ (emitLoop bits bc out).2.2, c ∈ base64urlChars := by
  intro bc
  induction bc using Nat.strong_induction_on with
  | _ bc ih =>
    intro bits out hout
    by_cases h : 6 ≤ bc
    · rw [emitLoop_eq, if_pos h]
      refine ih (bc - 6) (by omega) bits _ ?_
      intro c hc
      rcases List.mem_append.mp hc with hc | hc
      · exact hout c hc
      · rcases List.mem_singleton.mp hc with rfl
        exact b64char_mem (by rw [and63]; omega)
    · rw [emitLoop_small (by omega)]
      exact hout

theorem base64UrlEncode_chars (bytes : List Nat) :
    ∀ c ∈ base64UrlEncode bytes, c ∈ base64urlChars := by
  have hmain : ∀ (l : List Nat) (bits bc : Nat) (out : List Nat),
      (∀ c ∈ out, c ∈ base64urlChars) →
      ∀ c ∈ (l.foldl encOne (bits, bc, out)).2.2, c ∈ base64urlChars := by
    intro l
    induction l with
    | nil => intro bits bc out hout; exact hout
    | cons b rest ihl =>
      intro bits bc out hout
      simp only [List.foldl_cons]
      rcases hx : encOne (bits, bc, out) b with ⟨E1, E2, EC⟩
      have hEC : ∀ c ∈ EC, c ∈ base64urlChars := by
        have := emitLoop_chars (bc + 8) (wrap32 (bits <<< 8) ||| b) out hout
        simp only [encOne] at hx
        rw [hx] at this
        exact this
      have := ihl E1 E2 EC hEC
      exact this
  simp only [base64UrlEncode]
  by_cases h : 0 < (bytes.foldl encOne (0, 0, ([] : List Nat))).2.1
  · rw [if_pos h]
    intro c hc
    rcases List.mem_append.mp hc with hc | hc
    · exact hmain bytes 0 0 [] (by simp) c hc
    · rcases List.mem_singleton.mp hc with rfl
      exact b64char_mem (by rw [and63]; omega)
  · rw [if_neg h]
    exact hmain bytes 0 0 [] (by simp)

/-! ## Claim C4 (base64url encode and decode) -/

/-- C4: base64UrlDecode inverts base64UrlEncode on every byte sequence,
and every character the encoder writes is drawn from the 64-symbol
URL-safe alphabet (in particular no padding character is ever written). -/
theorem base64UrlCodec_spec (bytes : List Nat) (hb : ∀ x ∈ bytes, x < 256) :
    base64UrlDecode (base64UrlEncode bytes) = bytes ∧
    ∀ c ∈ base64UrlEncode bytes, c ∈ base64urlChars :=
  ⟨b64_roundTrip hb, base64UrlEncode_chars bytes⟩

/-- Witness for C4 at the concrete byte sequence 104, 105, 33. -/
theorem base64UrlCodec_spec_witness :
    base64UrlDecode (base64UrlEncode [104, 105, 33]) = [104, 105, 33] ∧
    ∀ c ∈ base64UrlEncode [104, 105, 33], c ∈ base64urlChars :=
  base64UrlCodec_spec [104, 105, 33] (by decide)

/-! ## Claim C6 (malformed base64url input) -/

/-- C6 (amended): base64UrlDecode never raises on malformed input; it
silently skips every character outside the alphabet, so decoding any
string returns the bytes of its in-alphabet characters alone. -/
theorem base64UrlDecode_skips_invalid (s : List Nat) :
    base64UrlDecode s = base64UrlDecode (s.filter (fun c => (charToValue c).isSome)) := by
  have hgen : ∀ (l : List Nat) (st : Nat × Nat × List Nat),
      l.foldl decOne st = (l.filter (fun c => (charToValue c).isSome)).foldl decOne st := by
    intro l
    induction l with
    | nil => intro st; rfl
    | cons c rest ihl =>
      intro st
      by_cases hc : (charToValue c).isSome
      · rw [List.filter_cons_of_pos (by simpa using hc), List.foldl_cons, List.foldl_cons,
          ihl (decOne st c)]
      · have hnone : charToValue c = none := by
          rcases h : charToValue c with _ | v
          · rfl
          · rw [h] at hc
            simp at hc
        rw [List.filter_cons_of_neg (by simpa using hc), List.foldl_cons, decOne_skip hnone,
          ihl]
  simp only [base64UrlDecode]
  rw [hgen s (0, 0, [])]

/-- Counterexample to C6 as stated: the asterisk (code 42) is outside the
alphabet, yet decoding does not raise; it silently produces the same byte
sequence as the token with the asterisk removed. -/
theorem base64UrlDecode_counterexample :
    charToValue 42 = none ∧
    base64UrlDecode [42, 65, 66] = base64UrlDecode [65, 66] ∧
    base64UrlDecode [42, 65, 66] = [0] := by
  decide

/-! ## Claim C2 (builder round trip) -/

theorem lookupD_sizeOf (vm : List (Str × List FieldConfig)) (k : Str) :
    sizeOf (lookupD vm k ([] : List FieldConfig)) ≤ sizeOf vm := by
  induction vm with
  | nil => simp [lookupD]
  | cons p rest ih =>
    obtain ⟨k0, v0⟩ := p
    simp only [lookupD]
    split
    · simp
      omega
    · have := ih
      simp
      omega

theorem lookupD_wfDefault {vm : List (Str × List FieldConfig)}
    (h : wfDefaultVariants vm = true) (k : Str) :
    wfDefaultList (lookupD vm k []) = true := by
  induction vm with
  | nil => simp [lookupD, wfDefaultList]
  | cons p rest ih =>
    obtain ⟨k0, v0⟩ := p
    simp only [wfDefaultVariants, Bool.and_eq_true] at h
    simp only [lookupD]
    split
    · exact h.1
    · exact ih h.2

theorem getDefaultValue_aux : ∀ (n : Nat) (c : FieldConfig), sizeOf c ≤ n →
    wfDefault c = true → getDefaultValue c = specDefaultValue c := by
  intro n
  induction n with
  | zero =>
    intro c hsz _
    exfalso
    cases c <;> simp at hsz
  | succ n ihn =>
    have hentries : ∀ l : List FieldConfig, sizeOf l ≤ n + 1 → wfDefaultList l = true →
        ∀ acc, defaultEntries l acc = specDefaultEntries l acc := by
      intro l
      induction l with
      | nil =>
        intro _ _ acc
        simp [defaultEntries, specDefaultEntries]
      | cons f rest ihl =>
        intro hsz hok acc
        simp only [wfDefaultList, Bool.and_eq_true] at hok
        have hf : sizeOf f ≤ n := by
          simp at hsz
          omega
        have hrest : sizeOf rest ≤ n + 1 := by
          simp at hsz
          omega
        simp only [defaultEntries, specDefaultEntries, ihn f hf hok.1, ihl hrest hok.2]
    intro c hsz hok
    cases c with
    | bool name => simp [getDefaultValue, specDefaultValue]
    | int name mn mx =>
      cases mn with
      | none => simp [wfDefault] at hok
      | some q => simp [getDefaultValue, specDefaultValue]
    | fixed name mn mx pr =>
      cases mn with
      | none => simp [wfDefault] at hok
      | some q => simp [getDefaultValue, specDefaultValue]
    | enum name opts =>
      match opts, hok with
      | some (o :: rest), _ => simp [getDefaultValue, specDefaultValue]
      | some [], hok => simp [wfDefault] at hok
      | none, hok => simp [wfDefault] at hok
    | optional name w => simp [getDefaultValue, specDefaultValue]
    | array name mnl mxl w => simp [getDefaultValue, specDefaultValue]
    | enumArray name mnl mxl ef => simp [getDefaultValue, specDefaultValue]
    | object name fs =>
      have hwl : wfDefaultList (fs.getD []) = true := by
        cases fs with
        | none => simp [wfDefaultList]
        | some l => simpa [wfDefault] using hok
      have hb : sizeOf (fs.getD []) ≤ n + 1 := by
        cases fs <;> simp at hsz ⊢ <;> omega
      simp only [getDefaultValue, specDefaultValue, hentries (fs.getD []) hb hwl]
    | union name d v =>
      cases d with
      | none => simp [wfDefault] at hok
      | some dd =>
        cases v with
        | none => simp [wfDefault] at hok
        | some vm =>
          simp only [wfDefault, Bool.and_eq_true] at hok
          obtain ⟨hd, hv⟩ := hok
          rcases hopt : dd.optionsAttr with _ | ⟨_ | ⟨o, orest⟩⟩
          · rw [hopt] at hd
            simp at hd
          · rw [hopt] at hd
            simp at hd
          · have ho : o ≠ [] := by
              rw [hopt] at hd
              intro he
              subst he
              simp at hd
            have hlook : wfDefaultList (lookupD vm o []) = true := lookupD_wfDefault hv o
            have hb : sizeOf (lookupD vm o []) ≤ n + 1 := by
              have h1 := lookupD_sizeOf vm o
              simp at hsz
              omega
            simp only [getDefaultValue, specDefaultValue, hopt, Option.some_bind,
              List.head?_cons, if_neg ho, hentries (lookupD vm o []) hb hlook]

/-- C7 (amended): the default-value deriver is total over the closed
builder configuration type, and agrees with the specification's clause
(Bool to false, Int and Fixed to min, Enum to its first option, Optional
to null, Array and EnumArray to the empty list, Object and Union to the
recursively assembled mappings) on every configuration whose attributes
give those clauses meaning and whose union discriminators have a truthy
(nonempty-string) first option; a union whose first discriminator option
is the empty string fails the source's if (firstOption) guard and yields
the empty mapping instead of the seeded one (see the counterexample). A
Pointer kind does not exist on the builder configuration type, matching
the source's closed type-tag union. -/
theorem getDefaultValue_spec (c : FieldConfig) (h : wfDefault c = true) :
    getDefaultValue c = specDefaultValue c :=
  getDefaultValue_aux (sizeOf c) c (Nat.le_refl _) h

/-- Witness for C7 at a concrete union with a bool variant field. -/
theorem getDefaultValue_spec_witness :
    getDefaultValue (FieldConfig.union (jstr "action")
        (some (FieldConfig.enum (jstr "type") (some [jstr "start", jstr "stop"])))
        (some [(jstr "start", [FieldConfig.bool (jstr "force")])])) =
      specDefaultValue (FieldConfig.union (jstr "action")
        (some (FieldConfig.enum (jstr "type") (some [jstr "start", jstr "stop"])))
        (some [(jstr "start", [FieldConfig.bool (jstr "force")])])) :=
  getDefaultValue_spec _ (by decide)

/-- Counterexample to C7 as stated: a union whose discriminator's first
option is the empty string is falsy under the source's if (firstOption)
guard, so the deriver returns the empty mapping rather than a mapping
seeded with the discriminator's name bound to its first option as the
specification's Union clause describes. -/
theorem getDefaultValue_counterexample :
    getDefaultValue (FieldConfig.union (jstr "u")
        (some (FieldConfig.enum (jstr "kind") (some [[]])))
        (some [])) = .vobj [] ∧
    specDefaultValue (FieldConfig.union (jstr "u")
        (some (FieldConfig.enum (jstr "kind") (some [[]])))
        (some [])) = .vobj [(jstr "kind", .vstr [])] ∧
    getDefaultValue (FieldConfig.union (jstr "u")
        (some (FieldConfig.enum (jstr "kind") (some [[]])))
        (some [])) ≠
      specDefaultValue (FieldConfig.union (jstr "u")
        (some (FieldConfig.enum (jstr "kind") (some [[]])))
        (some [])) := by
  have h1 : getDefaultValue (FieldConfig.union (jstr "u")
      (some (FieldConfig.enum (jstr "kind") (some [[]])))
      (some [])) = .vobj [] := by
    simp [getDefaultValue, FieldConfig.optionsAttr]
  have h2 : specDefaultValue (FieldConfig.union (jstr "u")
      (some (FieldConfig.enum (jstr "kind") (some [[]])))
      (some [])) = .vobj [(jstr "kind", .vstr [])] := by
    simp [specDefaultValue, FieldConfig.optionsAttr, FieldConfig.name,
      specDefaultEntries, lookupD]
  refine ⟨h1, h2, ?_⟩
  rw [h1, h2]
  intro h
  simp at h

/-! ## Claim C10 (decoded discriminator and inner names) -/

theorem getElemD_sizeOf (l : List (List MetaField)) (i : Nat) :
    sizeOf (l[i]?.getD ([] : List MetaField)) ≤ sizeOf l := by
  induction l generalizing i with
  | nil => simp
  | cons x rest ih =>
    cases i with
    | zero => simp; omega
    | succ i =>
      have := ih i
      simp only [List.getElem?_cons_succ]
      simp
      omega

theorem okDecoded_aux : ∀ (n : Nat) (mf : MetaField), sizeOf mf ≤ n → ∀ t : List Str,
    okDecodedNames (metaFormatToFieldConfig mf t) = true := by
  intro n
  induction n with
  | zero =>
    intro mf hsz
    exfalso
    cases mf <;> simp at hsz
  | succ n ihn =>
    have hlist : ∀ l : List MetaField, sizeOf l ≤ n + 1 → ∀ t : List Str,
        okDecodedNamesList (metaListToFieldConfig l t) = true := by
      intro l
      induction l with
      | nil =>
        intro _ t
        simp [metaListToFieldConfig, okDecodedNamesList]
      | cons mf rest ihl =>
        intro hsz t
        have hf : sizeOf mf ≤ n := by
          simp at hsz
          omega
        have hrest : sizeOf rest ≤ n + 1 := by
          simp at hsz
          omega
        simp only [metaListToFieldConfig, okDecodedNamesList, ihn mf hf t, ihl hrest t,
          Bool.and_self]
    have hrecord : ∀ (acc : List (Str × List FieldConfig)) (k : Str)
        (fls : List FieldConfig), okDecodedNamesVariants acc = true →
        okDecodedNamesList fls = true →
        okDecodedNamesVariants (recordSet acc k fls) = true := by
      intro acc
      induction acc with
      | nil =>
        intro k fls _ hf
        simp [recordSet, okDecodedNamesVariants, hf]
      | cons p rest ihr =>
        obtain ⟨k0, v0⟩ := p
        intro k fls hacc hf
        simp only [okDecodedNamesVariants, Bool.and_eq_true] at hacc
        simp only [recordSet]
        split
        · simp [okDecodedNamesVariants, hf, hacc.2]
        · simp [okDecodedNamesVariants, hacc.1, ihr k fls hacc.2 hf]
    have hloop : ∀ (opts : List Str) (mvars : List (List MetaField)) (i : Nat)
        (acc : List (Str × List FieldConfig)) (t : List Str), sizeOf mvars ≤ n + 1 →
        okDecodedNamesVariants acc = true →
        okDecodedNamesVariants (decodeVariantsLoop t mvars opts i acc) = true := by
      intro opts
      induction opts with
      | nil =>
        intro mvars i acc t _ hacc
        simpa [decodeVariantsLoop] using hacc
      | cons o rest ihl =>
        intro mvars i acc t hm hacc
        simp only [decodeVariantsLoop]
        refine ihl mvars (i + 1) _ t hm (hrecord acc o _ hacc ?_)
        refine hlist (mvars[i]?.getD []) ?_ t
        have := getElemD_sizeOf mvars i
        omega
    intro mf hsz t
    cases mf with
    | mbool ni => simp [metaFormatToFieldConfig, okDecodedNames]
    | mint ni mn mx => simp [metaFormatToFieldConfig, okDecodedNames]
    | mfixed ni mn mx pr => simp [metaFormatToFieldConfig, okDecodedNames]
    | menum ni idxs => simp [metaFormatToFieldConfig, okDecodedNames]
    | moptional ni w =>
      cases w with
      | none => simp [metaFormatToFieldConfig, okDecodedNames]
      | some mg =>
        have hg : sizeOf mg ≤ n := by
          simp at hsz
          omega
        simp [metaFormatToFieldConfig, okDecodedNames, ihn mg hg t]
    | marray ni mnl mxl item =>
      cases item with
      | none => simp [metaFormatToFieldConfig, okDecodedNames]
      | some mg =>
        have hg : sizeOf mg ≤ n := by
          simp at hsz
          omega
        simp [metaFormatToFieldConfig, okDecodedNames, ihn mg hg t]
    | menumArray ni mnl mxl idxs => simp [metaFormatToFieldConfig, okDecodedNames]
    | mobject ni mfs =>
      have hb : sizeOf mfs ≤ n + 1 := by
        simp at hsz
        omega
      simp [metaFormatToFieldConfig, okDecodedNames, hlist mfs hb t]
    | munion ni idxs mvars =>
      have hb : sizeOf mvars ≤ n + 1 := by
        simp at hsz
        omega
      simp only [metaFormatToFieldConfig, okDecodedNames, Bool.and_eq_true]
      constructor
      · simp
      · exact hloop _ mvars 0 [] t hb (by simp [okDecodedNamesVariants])

/-- C10: whatever meta payload and string table the bit-packed decoder is
given, every union in the decoded configuration carries a discriminator
field named exactly type and every enum-array an inner enum field named
exactly item, regardless of the names present at encode time. -/
theorem decodeSchemaMeta_names (d : MetaSchemaData) :
    ∀ c ∈ (decodeSchemaMeta d).2, okDecodedNames c = true := by
  intro c hc
  simp only [decodeSchemaMeta, List.mem_map] at hc
  obtain ⟨mf, _, rfl⟩ := hc
  exact okDecoded_aux (sizeOf mf) mf (Nat.le_refl _) _

/-! ## Claim C5 (depth bound of the bit-packed codec) -/

/-- C5: the bit-packed encode rejects exactly the field trees one of whose
roots is nested deeper than the fixed maximum depth 5 of the wire schema,
with an error message that ends in the rendered bound, and encodes every
tree within the bound. -/
theorem encodeSchemaMetaChecked_spec (name : Str) (fields : List FieldConfig) :
    (encodeSchemaMetaChecked name fields = Except.error depthExceededMessage ↔
      ∃ f ∈ fields, metaMaxDepth < configDepth f) ∧
    ((∀ f ∈ fields, configDepth f ≤ metaMaxDepth) →
      encodeSchemaMetaChecked name fields = Except.ok (encodeSchemaMeta name fields)) ∧
    (toString metaMaxDepth).data <:+ depthExceededMessage.data := by
  refine ⟨?_, ?_, ?_⟩
  · rw [encodeSchemaMetaChecked]
    split
    · rename_i h
      simp only [List.all_eq_true, decide_eq_true_eq] at h
      constructor
      · intro he
        simp at he
      · rintro ⟨f, hf, hd⟩
        exact absurd (h f hf) (by omega)
    · rename_i h
      simp only [List.all_eq_true, decide_eq_true_eq] at h
      push_neg at h
      constructor
      · intro _
        obtain ⟨f, hf, hd⟩ := h
        exact ⟨f, hf, hd⟩
      · intro _
        rfl
  · intro hall
    rw [encodeSchemaMetaChecked, if_pos]
    simp only [List.all_eq_true, decide_eq_true_eq]
    exact hall
  · exact ⟨"DepthExceededError: field tree deeper than the bit-packed maximum depth ".data,
      by rfl⟩

/-! ## Claim C9 (the lazily initialised compressor instance) -/

theorem runSched_cached (sched : List Nat) : ∀ (s : ZstdState) (v : Nat)
    (phs : List CallerPhase), s.cache = some v →
    (∀ ph ∈ phs, ph ≠ CallerPhase.initing) →
    (runSched s phs sched).1 = s ∧
    (∀ ph ∈ (runSched s phs sched).2, ph ≠ CallerPhase.initing) ∧
    (∀ (i w : Nat), ((runSched s phs sched).2)[i]? = some (CallerPhase.done w) →
      phs[i]? = some (CallerPhase.done w) ∨ w = v) := by
  induction sched with
  | nil =>
    intro s v phs hc hph
    refine ⟨rfl, hph, ?_⟩
    intro i w hw
    exact Or.inl hw
  | cons idx rest ih =>
    intro s v phs hc hph
    cases hival : phs[idx]? with
    | none =>
      simp only [runSched, hival]
      exact ih s v phs hc hph
    | some ph =>
      have hlen : idx < phs.length := (List.getElem?_eq_some.mp hival).1
      have hmem : ph ∈ phs := List.getElem?_mem hival
      have hnotinit : ph ≠ CallerPhase.initing := hph ph hmem
      cases ph with
      | initing => exact absurd rfl hnotinit
      | ready =>
        simp only [runSched, hival, zstdStep, hc]
        have hph2 : ∀ q ∈ phs.set idx (CallerPhase.done v),
            q ≠ CallerPhase.initing := by
          intro q hq
          rcases List.mem_or_eq_of_mem_set hq with h | h
          · exact hph q h
          · subst h
            intro h
            cases h
        obtain ⟨h1, h2, h3⟩ := ih s v (phs.set idx (CallerPhase.done v)) hc hph2
        refine ⟨h1, h2, ?_⟩
        intro i w hw
        rcases h3 i w hw with h | h
        · by_cases hij : idx = i
          · subst hij
            rw [List.getElem?_set_self hlen] at h
            have hwv : w = v := by
              cases h
              rfl
            exact Or.inr hwv
          · rw [List.getElem?_set_ne hij] at h
            exact Or.inl h
        · exact Or.inr h
      | done u =>
        simp only [runSched, hival, zstdStep]
        have hph2 : ∀ q ∈ phs.set idx (CallerPhase.done u),
            q ≠ CallerPhase.initing := by
          intro q hq
          rcases List.mem_or_eq_of_mem_set hq with h | h
          · exact hph q h
          · subst h
            intro h
            cases h
        obtain ⟨h1, h2, h3⟩ := ih s v (phs.set idx (CallerPhase.done u)) hc hph2
        refine ⟨h1, h2, ?_⟩
        intro i w hw
        rcases h3 i w hw with h | h
        · by_cases hij : idx = i
          · subst hij
            rw [List.getElem?_set_self hlen] at h
            have hwu : w = u := by
              cases h
              rfl
            subst hwu
            exact Or.inl hival
          · rw [List.getElem?_set_ne hij] at h
            exact Or.inl h
        · exact Or.inr h

/-- C9 (amended): the cache does make the instance lazy and, once a value
has been stored and no caller is still awaiting its own initialisation, it
is a true singleton: any further interleaving of callers leaves the module
state unchanged (no new zstd.Simple instance is constructed) and every
caller that completes during that run receives exactly the cached instance.
The original claim fails in the window before the first assignment: the
cache is written only after the awaited ZstdCodec.run resolves, and there
is no pending-initialisation guard, so concurrent first callers each
construct an instance (see the counterexample). -/
theorem getZstdSimple_cached_singleton (s : ZstdState) (v : Nat)
    (phs : List CallerPhase) (sched : List Nat) (hc : s.cache = some v)
    (hph : ∀ ph ∈ phs, ph ≠ CallerPhase.initing) :
    (runSched s phs sched).1 = s ∧
    (∀ (i w : Nat), ((runSched s phs sched).2)[i]? = some (CallerPhase.done w) →
      phs[i]? = some (CallerPhase.done w) ∨ w = v) := by
  obtain ⟨h1, _, h3⟩ := runSched_cached sched s v phs hc hph
  exact ⟨h1, h3⟩

/-- Witness for C9 at a cached state with one fresh and one finished
caller. -/
theorem getZstdSimple_cached_singleton_witness :
    (runSched ⟨some 7, 1⟩ [CallerPhase.ready, CallerPhase.done 7] [0, 1, 0]).1 =
      (⟨some 7, 1⟩ : ZstdState) ∧
    (∀ (i w : Nat), ((runSched ⟨some 7, 1⟩ [CallerPhase.ready, CallerPhase.done 7]
        [0, 1, 0]).2)[i]? = some (CallerPhase.done w) →
      ([CallerPhase.ready, CallerPhase.done 7])[i]? = some (CallerPhase.done w) ∨
        w = 7) :=
  getZstdSimple_cached_singleton ⟨some 7, 1⟩ 7 _ [0, 1, 0] rfl (by decide)

/-- Counterexample to C9 as stated: two callers that both pass the null
check before either initialisation resolves construct two distinct
zstd.Simple instances, so the instance is not created at most once. -/
theorem zstdSingleton_counterexample :
    (runSched ⟨none, 0⟩ [CallerPhase.ready, CallerPhase.ready] [0, 1, 0, 1]).1.created
      = 2 ∧ ¬ zstdSingletonClaim :=
  ⟨by decide, fun h => absurd (h [0, 1, 0, 1]) (by decide)⟩

/-! ## Claim C1 (the full schema round trip under both codecs) -/

/-! ## Unfolding equations for the bit-packed encoder and decoder -/

theorem fctm_bool (n : Str) (s : List Str) :
    fieldConfigToMetaFormat (.bool n) s =
      (.mbool (getStringIndex s n).1, (getStringIndex s n).2) := by
  conv_lhs => rw [fieldConfigToMetaFormat]
  simp [FieldConfig.name]

theorem fctm_int (n : Str) (mn mx : Option Rat) (s : List Str) :
    fieldConfigToMetaFormat (.int n mn mx) s =
      (.mint (getStringIndex s n).1 (mn.getD 0) (mx.getD 100), (getStringIndex s n).2) := by
  conv_lhs => rw [fieldConfigToMetaFormat]
  simp [FieldConfig.name]

theorem fctm_fixed (n : Str) (mn mx pr : Option Rat) (s : List Str) :
    fieldConfigToMetaFormat (.fixed n mn mx pr) s =
      (.mfixed (getStringIndex s n).1 (mn.getD 0) (mx.getD 100) (pr.getD (1/10)),
        (getStringIndex s n).2) := by
  conv_lhs => rw [fieldConfigToMetaFormat]
  simp [FieldConfig.name]

theorem fctm_enum (n : Str) (opts : Option (List Str)) (s : List Str) :
    fieldConfigToMetaFormat (.enum n opts) s =
      (.menum (getStringIndex s n).1 (internList (opts.getD []) (getStringIndex s n).2).1,
        (internList (opts.getD []) (getStringIndex s n).2).2) := by
  conv_lhs => rw [fieldConfigToMetaFormat]
  simp [FieldConfig.name]

theorem fctm_optional_some (n : Str) (g : FieldConfig) (s : List Str) :
    fieldConfigToMetaFormat (.optional n (some g)) s =
      (.moptional (getStringIndex s n).1
          (some (fieldConfigToMetaFormat g (getStringIndex s n).2).1),
        (fieldConfigToMetaFormat g (getStringIndex s n).2).2) := by
  conv_lhs => rw [fieldConfigToMetaFormat]
  simp [FieldConfig.name]

theorem fctm_optional_none (n : Str) (s : List Str) :
    fieldConfigToMetaFormat (.optional n none) s =
      (.moptional (getStringIndex s n).1 none, (getStringIndex s n).2) := by
  conv_lhs => rw [fieldConfigToMetaFormat]
  simp [FieldConfig.name]

theorem fctm_array_some (n : Str) (mnl mxl : Option Rat) (g : FieldConfig) (s : List Str) :
    fieldConfigToMetaFormat (.array n mnl mxl (some g)) s =
      (.marray (getStringIndex s n).1 (mnl.getD 0) (mxl.getD 10)
          (some (fieldConfigToMetaFormat g (getStringIndex s n).2).1),
        (fieldConfigToMetaFormat g (getStringIndex s n).2).2) := by
  conv_lhs => rw [fieldConfigToMetaFormat]
  simp [FieldConfig.name]

theorem fctm_array_none (n : Str) (mnl mxl : Option Rat) (s : List Str) :
    fieldConfigToMetaFormat (.array n mnl mxl none) s =
      (.marray (getStringIndex s n).1 (mnl.getD 0) (mxl.getD 10) none,
        (getStringIndex s n).2) := by
  conv_lhs => rw [fieldConfigToMetaFormat]
  simp [FieldConfig.name]

theorem fctm_enumArray (n : Str) (mnl mxl : Option Rat) (ef : Option FieldConfig)
    (s : List Str) :
    fieldConfigToMetaFormat (.enumArray n mnl mxl ef) s =
      (.menumArray (getStringIndex s n).1 (mnl.getD 0) (mxl.getD 10)
          (internList ((ef.bind FieldConfig.optionsAttr).getD [])
            (getStringIndex s n).2).1,
        (internList ((ef.bind FieldConfig.optionsAttr).getD [])
          (getStringIndex s n).2).2) := by
  conv_lhs => rw [fieldConfigToMetaFormat]
  simp [FieldConfig.name]

theorem fctm_object (n : Str) (fs : Option (List FieldConfig)) (s : List Str) :
    fieldConfigToMetaFormat (.object n fs) s =
      (.mobject (getStringIndex s n).1
          (configListToMetaFormat (fs.getD []) (getStringIndex s n).2).1,
        (configListToMetaFormat (fs.getD []) (getStringIndex s n).2).2) := by
  conv_lhs => rw [fieldConfigToMetaFormat]
  simp [FieldConfig.name]

theorem fctm_union (n : Str) (d : Option FieldConfig)
    (v : Option (List (Str × List FieldConfig))) (s : List Str) :
    fieldConfigToMetaFormat (.union n d v) s =
      (.munion (getStringIndex s n).1
          (internList ((d.bind FieldConfig.optionsAttr).getD [])
            (getStringIndex s n).2).1
          (variantsToMetaFormat ((d.bind FieldConfig.optionsAttr).getD [])
            (v.getD [])
            (internList ((d.bind FieldConfig.optionsAttr).getD [])
              (getStringIndex s n).2).2).1,
        (variantsToMetaFormat ((d.bind FieldConfig.optionsAttr).getD [])
          (v.getD [])
          (internList ((d.bind FieldConfig.optionsAttr).getD [])
            (getStringIndex s n).2).2).2) := by
  conv_lhs => rw [fieldConfigToMetaFormat]
  simp [FieldConfig.name]

theorem cltm_nil (s : List Str) : configListToMetaFormat [] s = ([], s) := by
  conv_lhs => rw [configListToMetaFormat]

theorem cltm_cons (f : FieldConfig) (rest : List FieldConfig) (s : List Str) :
    configListToMetaFormat (f :: rest) s =
      ((fieldConfigToMetaFormat f s).1 ::
          (configListToMetaFormat rest (fieldConfigToMetaFormat f s).2).1,
        (configListToMetaFormat rest (fieldConfigToMetaFormat f s).2).2) := by
  conv_lhs => rw [configListToMetaFormat]

theorem vtm_nil (vmap : List (Str × List FieldConfig)) (s : List Str) :
    variantsToMetaFormat [] vmap s = ([], s) := by
  conv_lhs => rw [variantsToMetaFormat]

theorem vtm_cons (o : Str) (rest : List Str) (vmap : List (Str × List FieldConfig))
    (s : List Str) :
    variantsToMetaFormat (o :: rest) vmap s =
      ((configListToMetaFormat (lookupD vmap o []) s).1 ::
          (variantsToMetaFormat rest vmap
            (configListToMetaFormat (lookupD vmap o []) s).2).1,
        (variantsToMetaFormat rest vmap
          (configListToMetaFormat (lookupD vmap o []) s).2).2) := by
  conv_lhs => rw [variantsToMetaFormat]

theorem dvl_nil (t : List Str) (mvars : List (List MetaField)) (i : Nat)
    (acc : List (Str × List FieldConfig)) :
    decodeVariantsLoop t mvars [] i acc = acc := by
  conv_lhs => rw [decodeVariantsLoop]

theorem dvl_cons (t : List Str) (mvars : List (List MetaField)) (o : Str)
    (rest : List Str) (i : Nat) (acc : List (Str × List FieldConfig)) :
    decodeVariantsLoop t mvars (o :: rest) i acc =
      decodeVariantsLoop t mvars rest (i + 1)
        (recordSet acc o (metaListToFieldConfig (mvars[i]?.getD []) t)) := by
  conv_lhs => rw [decodeVariantsLoop]

theorem dvl_shift (t : List Str) (m0 : List MetaField) (mvars : List (List MetaField)) :
    ∀ (opts : List Str) (i : Nat) (acc : List (Str × List FieldConfig)),
    decodeVariantsLoop t (m0 :: mvars) opts (i + 1) acc =
      decodeVariantsLoop t mvars opts i acc := by
  intro opts
  induction opts with
  | nil =>
    intro i acc
    simp [dvl_nil]
  | cons o rest ih =>
    intro i acc
    rw [dvl_cons, dvl_cons, List.getElem?_cons_succ, ih]

theorem memStr_iff (x : Str) (l : List Str) : memStr x l = true ↔ x ∈ l := by
  induction l with
  | nil => simp [memStr]
  | cons y rest ih => simp [memStr, ih, beq_iff_eq]

theorem recordSet_append {α : Type} (acc : List (Str × α)) (o : Str) (v : α)
    (h : ∀ p ∈ acc, p.1 ≠ o) : recordSet acc o v = acc ++ [(o, v)] := by
  induction acc with
  | nil => rfl
  | cons p rest ih =>
    obtain ⟨k0, v0⟩ := p
    have hk0 : k0 ≠ o := h (k0, v0) (by simp)
    simp only [recordSet, if_neg hk0, List.cons_append, List.cons.injEq, true_and]
    exact ih (fun q hq => h q (by simp [hq]))

theorem lookupD_okC1List (vmap : List (Str × List FieldConfig)) (o : Str)
    (h : okC1Variants vmap = true) : okC1List (lookupD vmap o []) = true := by
  induction vmap with
  | nil => rfl
  | cons p rest ih =>
    obtain ⟨k, v⟩ := p
    simp only [okC1Variants, Bool.and_eq_true] at h
    simp only [lookupD]
    split
    · exact h.1
    · exact ih h.2

theorem metaName_of {t : List Str} {ni : Nat} {x : Str} (h : t[ni]? = some x)
    (hx : x ≠ []) : metaName t ni = x := by
  simp [metaName, h, hx]

theorem nameOk_spec {n : Str} (h : nameOk n = true) : n ≠ [] ∧ sepFree n = true := by
  simp only [nameOk, Bool.and_eq_true, Bool.not_eq_true'] at h
  refine ⟨?_, h.2⟩
  intro he
  subst he
  simp [List.isEmpty] at h

theorem mftc_bool (ni : Nat) (t : List Str) :
    metaFormatToFieldConfig (.mbool ni) t = .bool (metaName t ni) := by
  conv_lhs => rw [metaFormatToFieldConfig]

theorem mftc_int (ni : Nat) (mn mx : Rat) (t : List Str) :
    metaFormatToFieldConfig (.mint ni mn mx) t =
      .int (metaName t ni) (some mn) (some mx) := by
  conv_lhs => rw [metaFormatToFieldConfig]

theorem mftc_fixed (ni : Nat) (mn mx pr : Rat) (t : List Str) :
    metaFormatToFieldConfig (.mfixed ni mn mx pr) t =
      .fixed (metaName t ni) (some mn) (some mx) (some pr) := by
  conv_lhs => rw [metaFormatToFieldConfig]

theorem mftc_enum (ni : Nat) (idxs : List Nat) (t : List Str) :
    metaFormatToFieldConfig (.menum ni idxs) t =
      .enum (metaName t ni) (some (idxs.map (resolveStr t))) := by
  conv_lhs => rw [metaFormatToFieldConfig]

theorem mftc_optional_some (ni : Nat) (mg : MetaField) (t : List Str) :
    metaFormatToFieldConfig (.moptional ni (some mg)) t =
      .optional (metaName t ni) (some (metaFormatToFieldConfig mg t)) := by
  conv_lhs => rw [metaFormatToFieldConfig]

theorem mftc_optional_none (ni : Nat) (t : List Str) :
    metaFormatToFieldConfig (.moptional ni none) t =
      .optional (metaName t ni) none := by
  conv_lhs => rw [metaFormatToFieldConfig]

theorem mftc_array_some (ni : Nat) (mnl mxl : Rat) (mg : MetaField) (t : List Str) :
    metaFormatToFieldConfig (.marray ni mnl mxl (some mg)) t =
      .array (metaName t ni) (some mnl) (some mxl)
        (some (metaFormatToFieldConfig mg t)) := by
  conv_lhs => rw [metaFormatToFieldConfig]

theorem mftc_array_none (ni : Nat) (mnl mxl : Rat) (t : List Str) :
    metaFormatToFieldConfig (.marray ni mnl mxl none) t =
      .array (metaName t ni) (some mnl) (some mxl) none := by
  conv_lhs => rw [metaFormatToFieldConfig]

theorem mftc_enumArray (ni : Nat) (mnl mxl : Rat) (idxs : List Nat) (t : List Str) :
    metaFormatToFieldConfig (.menumArray ni mnl mxl idxs) t =
      .enumArray (metaName t ni) (some mnl) (some mxl)
        (some (.enum (jstr "item") (some (idxs.map (resolveStr t))))) := by
  conv_lhs => rw [metaFormatToFieldConfig]

theorem mftc_object (ni : Nat) (mfs : List MetaField) (t : List Str) :
    metaFormatToFieldConfig (.mobject ni mfs) t =
      .object (metaName t ni) (some (metaListToFieldConfig mfs t)) := by
  conv_lhs => rw [metaFormatToFieldConfig]

theorem mftc_union (ni : Nat) (idxs : List Nat) (mvars : List (List MetaField))
    (t : List Str) :
    metaFormatToFieldConfig (.munion ni idxs mvars) t =
      .union (metaName t ni)
        (some (.enum (jstr "type") (some (idxs.map (resolveStr t)))))
        (some (decodeVariantsLoop t mvars (idxs.map (resolveStr t)) 0 [])) := by
  conv_lhs => rw [metaFormatToFieldConfig]

theorem mltc_nil (t : List Str) : metaListToFieldConfig [] t = [] := by
  conv_lhs => rw [metaListToFieldConfig]

theorem mltc_cons (mf : MetaField) (rest : List MetaField) (t : List Str) :
    metaListToFieldConfig (mf :: rest) t =
      metaFormatToFieldConfig mf t :: metaListToFieldConfig rest t := by
  conv_lhs => rw [metaListToFieldConfig]

theorem nc1_bool (n : Str) : normalizeC1 (.bool n) = .bool n := by
  conv_lhs => rw [normalizeC1]

theorem nc1_int (n : Str) (mn mx : Option Rat) :
    normalizeC1 (.int n mn mx) = .int n (some (mn.getD 0)) (some (mx.getD 100)) := by
  conv_lhs => rw [normalizeC1]

theorem nc1_fixed (n : Str) (mn mx pr : Option Rat) :
    normalizeC1 (.fixed n mn mx pr) =
      .fixed n (some (mn.getD 0)) (some (mx.getD 100)) (some (pr.getD (1/10))) := by
  conv_lhs => rw [normalizeC1]

theorem nc1_enum (n : Str) (opts : Option (List Str)) :
    normalizeC1 (.enum n opts) = .enum n (some (opts.getD [])) := by
  conv_lhs => rw [normalizeC1]

theorem nc1_optional_some (n : Str) (g : FieldConfig) :
    normalizeC1 (.optional n (some g)) = .optional n (some (normalizeC1 g)) := by
  conv_lhs => rw [normalizeC1]

theorem nc1_optional_none (n : Str) :
    normalizeC1 (.optional n none) = .optional n none := by
  conv_lhs => rw [normalizeC1]

theorem nc1_array_some (n : Str) (mnl mxl : Option Rat) (g : FieldConfig) :
    normalizeC1 (.array n mnl mxl (some g)) =
      .array n (some (mnl.getD 0)) (some (mxl.getD 10)) (some (normalizeC1 g)) := by
  conv_lhs => rw [normalizeC1]

theorem nc1_array_none (n : Str) (mnl mxl : Option Rat) :
    normalizeC1 (.array n mnl mxl none) =
      .array n (some (mnl.getD 0)) (some (mxl.getD 10)) none := by
  conv_lhs => rw [normalizeC1]

theorem nc1_enumArray (n : Str) (mnl mxl : Option Rat) (ef : Option FieldConfig) :
    normalizeC1 (.enumArray n mnl mxl ef) =
      .enumArray n (some (mnl.getD 0)) (some (mxl.getD 10))
        (some (.enum (jstr "item")
          (some ((ef.bind FieldConfig.optionsAttr).getD [])))) := by
  conv_lhs => rw [normalizeC1]

theorem nc1_object (n : Str) (fs : Option (List FieldConfig)) :
    normalizeC1 (.object n fs) = .object n (some (normalizeC1List (fs.getD []))) := by
  conv_lhs => rw [normalizeC1]

theorem nc1_union (n : Str) (d : Option FieldConfig)
    (v : Option (List (Str × List FieldConfig))) :
    normalizeC1 (.union n d v) =
      .union n
        (some (.enum (jstr "type") (some ((d.bind FieldConfig.optionsAttr).getD []))))
        (some (normalizeC1Variants ((d.bind FieldConfig.optionsAttr).getD [])
          (v.getD []))) := by
  conv_lhs => rw [normalizeC1]

theorem nc1List_nil : normalizeC1List [] = [] := by
  conv_lhs => rw [normalizeC1List]

theorem nc1List_cons (f : FieldConfig) (rest : List FieldConfig) :
    normalizeC1List (f :: rest) = normalizeC1 f :: normalizeC1List rest := by
  conv_lhs => rw [normalizeC1List]

theorem nc1V_nil (vmap : List (Str × List FieldConfig)) :
    normalizeC1Variants [] vmap = [] := by
  conv_lhs => rw [normalizeC1Variants]

theorem nc1V_cons (o : Str) (rest : List Str) (vmap : List (Str × List FieldConfig)) :
    normalizeC1Variants (o :: rest) vmap =
      (o, normalizeC1List (lookupD vmap o [])) :: normalizeC1Variants rest vmap := by
  conv_lhs => rw [normalizeC1Variants]
theorem okC1_object_parts {nm : Str} {fs : Option (List FieldConfig)}
    (h : okC1 (.object nm fs) = true) :
    nameOk nm = true ∧ okC1List (fs.getD []) = true := by
  cases fs with
  | none =>
    simp only [okC1, Bool.and_true] at h
    exact ⟨h, rfl⟩
  | some l =>
    simp only [okC1, Bool.and_eq_true] at h
    exact ⟨h.1, h.2⟩

theorem okC1_union_parts {nm : Str} {d : Option FieldConfig}
    {v : Option (List (Str × List FieldConfig))}
    (h : okC1 (.union nm d v) = true) :
    nameOk nm = true ∧
    sepFreeTbl ((d.bind FieldConfig.optionsAttr).getD []) = true ∧
    nodupStr ((d.bind FieldConfig.optionsAttr).getD []) = true ∧
    okC1Variants (v.getD []) = true := by
  cases v with
  | none =>
    simp only [okC1, Bool.and_true, Bool.and_eq_true] at h
    exact ⟨h.1.1, h.1.2, h.2, rfl⟩
  | some vm =>
    simp only [okC1, Bool.and_eq_true] at h
    exact ⟨h.1.1.1, h.1.1.2, h.1.2, h.2⟩

theorem metaRound_aux : ∀ (n : Nat) (f : FieldConfig), sizeOf f ≤ n →
    ∀ (s : List Str), okC1 f = true →
    TblPref s (fieldConfigToMetaFormat f s).2 ∧
    (sepFreeTbl s = true → sepFreeTbl (fieldConfigToMetaFormat f s).2 = true) ∧
    (∀ t, TblPref (fieldConfigToMetaFormat f s).2 t →
      metaFormatToFieldConfig (fieldConfigToMetaFormat f s).1 t = normalizeC1 f) := by
  intro n
  induction n with
  | zero =>
    intro f hsz
    exfalso
    cases f <;> simp at hsz
  | succ n ihn =>
    have hlist : ∀ l : List FieldConfig, sizeOf l ≤ n + 1 → ∀ s : List Str,
        okC1List l = true →
        TblPref s (configListToMetaFormat l s).2 ∧
        (sepFreeTbl s = true → sepFreeTbl (configListToMetaFormat l s).2 = true) ∧
        (∀ t, TblPref (configListToMetaFormat l s).2 t →
          metaListToFieldConfig (configListToMetaFormat l s).1 t = normalizeC1List l) := by
      intro l
      induction l with
      | nil =>
        intro _ s _
        simp only [cltm_nil]
        exact ⟨tblPref_refl s, fun h => h, fun t _ => by rw [mltc_nil, nc1List_nil]⟩
      | cons f rest ihl =>
        intro hsz s hok
        have hf : sizeOf f ≤ n := by
          simp at hsz
          omega
        have hrest : sizeOf rest ≤ n + 1 := by
          simp at hsz
          omega
        simp only [okC1List, Bool.and_eq_true] at hok
        obtain ⟨p1, p2, p3⟩ := ihn f hf s hok.1
        obtain ⟨q1, q2, q3⟩ := ihl hrest (fieldConfigToMetaFormat f s).2 hok.2
        refine ⟨?_, ?_, ?_⟩
        · simp only [cltm_cons]
          exact tblPref_trans p1 q1
        · simp only [cltm_cons]
          exact fun hs => q2 (p2 hs)
        · intro t ht
          simp only [cltm_cons] at ht ⊢
          rw [mltc_cons, p3 t (tblPref_trans q1 ht), q3 t ht, nc1List_cons]
    have hvars : ∀ (opts : List Str) (vmap : List (Str × List FieldConfig))
        (s : List Str), sizeOf vmap ≤ n + 1 → okC1Variants vmap = true →
        TblPref s (variantsToMetaFormat opts vmap s).2 ∧
        (sepFreeTbl s = true →
          sepFreeTbl (variantsToMetaFormat opts vmap s).2 = true) ∧
        (∀ t, TblPref (variantsToMetaFormat opts vmap s).2 t →
          ∀ acc : List (Str × List FieldConfig), (∀ p ∈ acc, p.1 ∉ opts) →
            nodupStr opts = true →
            decodeVariantsLoop t (variantsToMetaFormat opts vmap s).1 opts 0 acc =
              acc ++ normalizeC1Variants opts vmap) := by
      intro opts
      induction opts with
      | nil =>
        intro vmap s _ _
        simp only [vtm_nil]
        refine ⟨tblPref_refl s, fun h => h, ?_⟩
        intro t _ acc _ _
        rw [dvl_nil, nc1V_nil, List.append_nil]
      | cons o rest iho =>
        intro vmap s hszv hokv
        have hlk : okC1List (lookupD vmap o []) = true := lookupD_okC1List vmap o hokv
        have hsz1 : sizeOf (lookupD vmap o ([] : List FieldConfig)) ≤ n + 1 :=
          le_trans (lookupD_sizeOf vmap o) hszv
        obtain ⟨a1, a2, a3⟩ := hlist (lookupD vmap o []) hsz1 s hlk
        obtain ⟨b1, b2, b3⟩ :=
          iho vmap (configListToMetaFormat (lookupD vmap o []) s).2 hszv hokv
        refine ⟨?_, ?_, ?_⟩
        · simp only [vtm_cons]
          exact tblPref_trans a1 b1
        · simp only [vtm_cons]
          exact fun hs => b2 (a2 hs)
        · intro t ht acc hdisj hnd
          simp only [vtm_cons] at ht ⊢
          simp only [nodupStr, Bool.and_eq_true, Bool.not_eq_true'] at hnd
          rw [dvl_cons, dvl_shift]
          simp only [List.getElem?_cons_zero, Option.getD_some]
          rw [recordSet_append _ _ _ (fun p hp => by
            have := hdisj p hp
            simp at this
            exact fun he => this.1 he)]
          rw [a3 t (tblPref_trans b1 ht)]
          have hdisj2 : ∀ p ∈ acc ++ [(o, normalizeC1List (lookupD vmap o []))],
              p.1 ∉ rest := by
            intro p hp
            rcases List.mem_append.mp hp with h | h
            · have := hdisj p h
              simp at this
              exact this.2
            · simp at h
              subst h
              simp only []
              intro hmem
              have := (memStr_iff o rest).mpr hmem
              rw [hnd.1] at this
              cases this
          rw [b3 t ht _ hdisj2 hnd.2, nc1V_cons]
          simp
    intro f hsz s hok
    cases f with
    | bool nm =>
      simp only [okC1] at hok
      obtain ⟨hne, hsf⟩ := nameOk_spec hok
      refine ⟨?_, ?_, ?_⟩
      · simp only [fctm_bool]
        exact getStringIndex_pref s nm
      · simp only [fctm_bool]
        exact fun hs => getStringIndex_sepFree hs hsf
      · intro t ht
        simp only [fctm_bool] at ht ⊢
        rw [mftc_bool, metaName_of (tblPref_lookup ht (getStringIndex_resolve s nm)) hne,
          nc1_bool]
    | int nm mn mx =>
      simp only [okC1] at hok
      obtain ⟨hne, hsf⟩ := nameOk_spec hok
      refine ⟨?_, ?_, ?_⟩
      · simp only [fctm_int]
        exact getStringIndex_pref s nm
      · simp only [fctm_int]
        exact fun hs => getStringIndex_sepFree hs hsf
      · intro t ht
        simp only [fctm_int] at ht ⊢
        rw [mftc_int, metaName_of (tblPref_lookup ht (getStringIndex_resolve s nm)) hne,
          nc1_int]
    | fixed nm mn mx pr =>
      simp only [okC1] at hok
      obtain ⟨hne, hsf⟩ := nameOk_spec hok
      refine ⟨?_, ?_, ?_⟩
      · simp only [fctm_fixed]
        exact getStringIndex_pref s nm
      · simp only [fctm_fixed]
        exact fun hs => getStringIndex_sepFree hs hsf
      · intro t ht
        simp only [fctm_fixed] at ht ⊢
        rw [mftc_fixed, metaName_of (tblPref_lookup ht (getStringIndex_resolve s nm)) hne,
          nc1_fixed]
    | enum nm opts =>
      simp only [okC1, Bool.and_eq_true] at hok
      obtain ⟨hne, hsf⟩ := nameOk_spec hok.1
      refine ⟨?_, ?_, ?_⟩
      · simp only [fctm_enum]
        exact tblPref_trans (getStringIndex_pref s nm)
          (internList_pref (opts.getD []) (getStringIndex s nm).2)
      · simp only [fctm_enum]
        exact fun hs => internList_sepFree hok.2 (getStringIndex_sepFree hs hsf)
      · intro t ht
        simp only [fctm_enum] at ht ⊢
        have hpre : TblPref (getStringIndex s nm).2 t :=
          tblPref_trans (internList_pref (opts.getD []) (getStringIndex s nm).2) ht
        rw [mftc_enum, metaName_of (tblPref_lookup hpre (getStringIndex_resolve s nm)) hne,
          internList_resolve (opts.getD []) (getStringIndex s nm).2 t ht, nc1_enum]
    | optional nm w =>
      cases w with
      | none =>
        simp only [okC1, Bool.and_eq_true] at hok
        obtain ⟨hne, hsf⟩ := nameOk_spec hok.1
        refine ⟨?_, ?_, ?_⟩
        · simp only [fctm_optional_none]
          exact getStringIndex_pref s nm
        · simp only [fctm_optional_none]
          exact fun hs => getStringIndex_sepFree hs hsf
        · intro t ht
          simp only [fctm_optional_none] at ht ⊢
          rw [mftc_optional_none,
            metaName_of (tblPref_lookup ht (getStringIndex_resolve s nm)) hne,
            nc1_optional_none]
      | some g =>
        simp only [okC1, Bool.and_eq_true] at hok
        obtain ⟨hne, hsf⟩ := nameOk_spec hok.1
        have hg : sizeOf g ≤ n := by
          simp at hsz
          omega
        obtain ⟨p1, p2, p3⟩ := ihn g hg (getStringIndex s nm).2 hok.2
        refine ⟨?_, ?_, ?_⟩
        · simp only [fctm_optional_some]
          exact tblPref_trans (getStringIndex_pref s nm) p1
        · simp only [fctm_optional_some]
          exact fun hs => p2 (getStringIndex_sepFree hs hsf)
        · intro t ht
          simp only [fctm_optional_some] at ht ⊢
          have hpre : TblPref (getStringIndex s nm).2 t := tblPref_trans p1 ht
          rw [mftc_optional_some,
            metaName_of (tblPref_lookup hpre (getStringIndex_resolve s nm)) hne,
            p3 t ht, nc1_optional_some]
    | array nm mnl mxl w =>
      cases w with
      | none =>
        simp only [okC1, Bool.and_eq_true] at hok
        obtain ⟨hne, hsf⟩ := nameOk_spec hok.1
        refine ⟨?_, ?_, ?_⟩
        · simp only [fctm_array_none]
          exact getStringIndex_pref s nm
        · simp only [fctm_array_none]
          exact fun hs => getStringIndex_sepFree hs hsf
        · intro t ht
          simp only [fctm_array_none] at ht ⊢
          rw [mftc_array_none,
            metaName_of (tblPref_lookup ht (getStringIndex_resolve s nm)) hne,
            nc1_array_none]
      | some g =>
        simp only [okC1, Bool.and_eq_true] at hok
        obtain ⟨hne, hsf⟩ := nameOk_spec hok.1
        have hg : sizeOf g ≤ n := by
          simp at hsz
          omega
        obtain ⟨p1, p2, p3⟩ := ihn g hg (getStringIndex s nm).2 hok.2
        refine ⟨?_, ?_, ?_⟩
        · simp only [fctm_array_some]
          exact tblPref_trans (getStringIndex_pref s nm) p1
        · simp only [fctm_array_some]
          exact fun hs => p2 (getStringIndex_sepFree hs hsf)
        · intro t ht
          simp only [fctm_array_some] at ht ⊢
          have hpre : TblPref (getStringIndex s nm).2 t := tblPref_trans p1 ht
          rw [mftc_array_some,
            metaName_of (tblPref_lookup hpre (getStringIndex_resolve s nm)) hne,
            p3 t ht, nc1_array_some]
    | enumArray nm mnl mxl ef =>
      simp only [okC1, Bool.and_eq_true] at hok
      obtain ⟨hne, hsf⟩ := nameOk_spec hok.1
      refine ⟨?_, ?_, ?_⟩
      · simp only [fctm_enumArray]
        exact tblPref_trans (getStringIndex_pref s nm)
          (internList_pref ((ef.bind FieldConfig.optionsAttr).getD [])
            (getStringIndex s nm).2)
      · simp only [fctm_enumArray]
        exact fun hs => internList_sepFree hok.2 (getStringIndex_sepFree hs hsf)
      · intro t ht
        simp only [fctm_enumArray] at ht ⊢
        have hpre : TblPref (getStringIndex s nm).2 t :=
          tblPref_trans
            (internList_pref ((ef.bind FieldConfig.optionsAttr).getD [])
              (getStringIndex s nm).2) ht
        rw [mftc_enumArray,
          metaName_of (tblPref_lookup hpre (getStringIndex_resolve s nm)) hne,
          internList_resolve ((ef.bind FieldConfig.optionsAttr).getD [])
            (getStringIndex s nm).2 t ht,
          nc1_enumArray]
    | object nm fs =>
      obtain ⟨hnm, hokl⟩ := okC1_object_parts hok
      obtain ⟨hne, hsf⟩ := nameOk_spec hnm
      have hszl : sizeOf (fs.getD ([] : List FieldConfig)) ≤ n + 1 := by
        cases fs with
        | none => simp
        | some l =>
          simp at hsz ⊢
          omega
      obtain ⟨p1, p2, p3⟩ := hlist (fs.getD []) hszl (getStringIndex s nm).2 hokl
      refine ⟨?_, ?_, ?_⟩
      · simp only [fctm_object]
        exact tblPref_trans (getStringIndex_pref s nm) p1
      · simp only [fctm_object]
        exact fun hs => p2 (getStringIndex_sepFree hs hsf)
      · intro t ht
        simp only [fctm_object] at ht ⊢
        have hpre : TblPref (getStringIndex s nm).2 t := tblPref_trans p1 ht
        rw [mftc_object,
          metaName_of (tblPref_lookup hpre (getStringIndex_resolve s nm)) hne,
          p3 t ht, nc1_object]
    | union nm d v =>
      obtain ⟨hnm, hsfo, hnd, hokv⟩ := okC1_union_parts hok
      obtain ⟨hne, hsf⟩ := nameOk_spec hnm
      have hszv : sizeOf (v.getD ([] : List (Str × List FieldConfig))) ≤ n + 1 := by
        cases v with
        | none => simp
        | some vm =>
          simp at hsz ⊢
          omega
      obtain ⟨b1, b2, b3⟩ :=
        hvars ((d.bind FieldConfig.optionsAttr).getD []) (v.getD [])
          (internList ((d.bind FieldConfig.optionsAttr).getD [])
            (getStringIndex s nm).2).2 hszv hokv
      refine ⟨?_, ?_, ?_⟩
      · simp only [fctm_union]
        exact tblPref_trans (getStringIndex_pref s nm)
          (tblPref_trans
            (internList_pref ((d.bind FieldConfig.optionsAttr).getD [])
              (getStringIndex s nm).2) b1)
      · simp only [fctm_union]
        exact fun hs => b2 (internList_sepFree hsfo (getStringIndex_sepFree hs hsf))
      · intro t ht
        simp only [fctm_union] at ht ⊢
        have hpre2 : TblPref (internList ((d.bind FieldConfig.optionsAttr).getD [])
            (getStringIndex s nm).2).2 t := tblPref_trans b1 ht
        have hpre : TblPref (getStringIndex s nm).2 t :=
          tblPref_trans
            (internList_pref ((d.bind FieldConfig.optionsAttr).getD [])
              (getStringIndex s nm).2) hpre2
        rw [mftc_union,
          metaName_of (tblPref_lookup hpre (getStringIndex_resolve s nm)) hne,
          internList_resolve ((d.bind FieldConfig.optionsAttr).getD [])
            (getStringIndex s nm).2 t hpre2,
          b3 t ht [] (by simp) hnd, nc1_union]
        simp

theorem okC1_nameOk {f : FieldConfig} (h : okC1 f = true) : nameOk f.name = true := by
  cases f with
  | bool n => exact h
  | int n mn mx => exact h
  | fixed n mn mx pr => exact h
  | enum n opts =>
    simp only [okC1, Bool.and_eq_true, FieldConfig.name] at h ⊢
    exact h.1
  | optional n w =>
    cases w with
    | some g =>
      simp only [okC1, Bool.and_eq_true, FieldConfig.name] at h ⊢
      exact h.1
    | none =>
      simp only [okC1, Bool.and_true, FieldConfig.name] at h ⊢
      exact h
  | array n mnl mxl w =>
    cases w with
    | some g =>
      simp only [okC1, Bool.and_eq_true, FieldConfig.name] at h ⊢
      exact h.1
    | none =>
      simp only [okC1, Bool.and_true, FieldConfig.name] at h ⊢
      exact h
  | enumArray n mnl mxl ef =>
    simp only [okC1, Bool.and_eq_true, FieldConfig.name] at h ⊢
    exact h.1
  | object n fs =>
    cases fs with
    | some l =>
      simp only [okC1, Bool.and_eq_true, FieldConfig.name] at h ⊢
      exact h.1
    | none =>
      simp only [okC1, Bool.and_true, FieldConfig.name] at h ⊢
      exact h
  | union n d v =>
    cases v with
    | some vm =>
      simp only [okC1, Bool.and_eq_true, FieldConfig.name] at h ⊢
      exact h.1.1.1
    | none =>
      simp only [okC1, Bool.and_true, Bool.and_eq_true, FieldConfig.name] at h ⊢
      exact h.1.1

theorem efl_nil (s : List Str) : encodeFieldsLoop [] s = ([], s) := rfl

theorem efl_cons (f : FieldConfig) (rest : List FieldConfig) (s : List Str) :
    encodeFieldsLoop (f :: rest) s =
      ((fieldConfigToMetaFormat f (s ++ [f.name])).1 ::
          (encodeFieldsLoop rest (fieldConfigToMetaFormat f (s ++ [f.name])).2).1,
        (encodeFieldsLoop rest (fieldConfigToMetaFormat f (s ++ [f.name])).2).2) := by
  conv_lhs => rw [encodeFieldsLoop]

theorem encodeFieldsLoop_spec : ∀ (fields : List FieldConfig) (s : List Str),
    (∀ f ∈ fields, okC1 f = true) →
    TblPref s (encodeFieldsLoop fields s).2 ∧
    (sepFreeTbl s = true → sepFreeTbl (encodeFieldsLoop fields s).2 = true) ∧
    (∀ t, TblPref (encodeFieldsLoop fields s).2 t →
      (encodeFieldsLoop fields s).1.map (fun mf => metaFormatToFieldConfig mf t) =
        fields.map normalizeC1) := by
  intro fields
  induction fields with
  | nil =>
    intro s _
    simp only [efl_nil]
    exact ⟨tblPref_refl s, fun h => h, fun t _ => by simp⟩
  | cons f rest ih =>
    intro s hok
    have hokf : okC1 f = true := hok f (by simp)
    have hokr : ∀ g ∈ rest, okC1 g = true := fun g hg => hok g (by simp [hg])
    obtain ⟨hne, hsf⟩ := nameOk_spec (okC1_nameOk hokf)
    obtain ⟨p1, p2, p3⟩ :=
      metaRound_aux (sizeOf f) f (Nat.le_refl _) (s ++ [f.name]) hokf
    obtain ⟨q1, q2, q3⟩ := ih (fieldConfigToMetaFormat f (s ++ [f.name])).2 hokr
    refine ⟨?_, ?_, ?_⟩
    · simp only [efl_cons]
      exact tblPref_trans (tblPref_append s [f.name]) (tblPref_trans p1 q1)
    · simp only [efl_cons]
      intro hs
      refine q2 (p2 ?_)
      simp [sepFreeTbl_append, hs, sepFreeTbl, hsf]
    · intro t ht
      simp only [efl_cons] at ht ⊢
      rw [List.map_cons, p3 t (tblPref_trans q1 ht), q3 t ht, List.map_cons]

theorem esm_eq (name : Str) (fields : List FieldConfig) :
    encodeSchemaMeta name fields =
      ⟨1, (encodeFieldsLoop fields [name]).1,
        encodeStringTable (encodeFieldsLoop fields [name]).2⟩ := by
  conv_lhs => rw [encodeSchemaMeta]

theorem metaRoundTrip (name : Str) (fields : List FieldConfig)
    (hname : sepFree name = true) (hok : ∀ f ∈ fields, okC1 f = true) :
    decodeSchemaMeta (encodeSchemaMeta name fields) =
      (name, fields.map normalizeC1) := by
  obtain ⟨p1, p2, p3⟩ := encodeFieldsLoop_spec fields [name] hok
  have hSsep : sepFreeTbl (encodeFieldsLoop fields [name]).2 = true :=
    p2 (by simp [sepFreeTbl, hname])
  obtain ⟨r, hr⟩ := p1
  have hSne : (encodeFieldsLoop fields [name]).2 ≠ [] := by
    rw [← hr]
    simp
  rw [esm_eq]
  simp only [decodeSchemaMeta]
  rw [tableRoundTrip hSne hSsep]
  rw [p3 (encodeFieldsLoop fields [name]).2 (tblPref_refl _)]
  rw [← hr]
  simp

/-- C1 (amended): over the supported node kinds, for every schema name free
of the string-table separator and every field tree whose names are nonempty
and separator-free, whose option literals are separator-free and whose
union discriminator options are duplicate-free, the bit-packed round trip
returns the same name and the normalizeC1 image of the fields: every
attribute the wire format stores is preserved, absent numeric attributes
come back as their documented defaults, a union discriminator field comes
back named type and an enum-array inner field named item. The compressed
text codec, whose external zstd and JSON stages are assumed faithful at the
encoded value, round-trips the pair exactly. -/
theorem schemaCodec_roundTrip (name : Str) (fields : List FieldConfig)
    (compress decompress : List Nat → List Nat)
    (serialize : Str × List FieldConfig → List Nat)
    (deserialize : List Nat → Str × List FieldConfig)
    (hname : sepFree name = true)
    (hok : ∀ f ∈ fields, okC1 f = true)
    (hdepth : ∀ f ∈ fields, configDepth f ≤ metaMaxDepth)
    (hser : deserialize (serialize (name, fields)) = (name, fields))
    (hcomp : decompress (compress (serialize (name, fields))) =
      serialize (name, fields))
    (hbytes : ∀ b ∈ compress (serialize (name, fields)), b < 256) :
    decodeSchemaMeta (encodeSchemaMeta name fields) =
      (name, fields.map normalizeC1) ∧
    decodeSchemaZstd decompress deserialize
        (encodeSchemaZstd compress serialize (name, fields)) = (name, fields) := by
  refine ⟨metaRoundTrip name fields hname hok, ?_⟩
  simp only [encodeSchemaZstd, decodeSchemaZstd]
  rw [b64_roundTrip hbytes, hcomp, hser]

/-- Witness for C1 at a one-field schema, with identity compression and a
constant serialisation that is faithful at the encoded pair. -/
theorem schemaCodec_roundTrip_witness :
    decodeSchemaMeta (encodeSchemaMeta (jstr "s") [.bool (jstr "a")]) =
      (jstr "s", ([FieldConfig.bool (jstr "a")]).map normalizeC1) ∧
    decodeSchemaZstd id (fun _ => (jstr "s", [FieldConfig.bool (jstr "a")]))
        (encodeSchemaZstd id (fun _ => [0]) (jstr "s", [FieldConfig.bool (jstr "a")])) =
      (jstr "s", [FieldConfig.bool (jstr "a")]) :=
  schemaCodec_roundTrip (jstr "s") [.bool (jstr "a")] id id (fun _ => [0])
    (fun _ => (jstr "s", [FieldConfig.bool (jstr "a")]))
    (by decide) (by decide) (by decide) rfl rfl (by decide)

/-- Counterexample to C1 as stated: a union whose discriminator field is
named kind decodes with its discriminator renamed to the literal type, so
the decoded field list differs from the input in the discriminator's name
attribute. -/
theorem schemaCodec_counterexample :
    (decodeSchemaMeta (encodeSchemaMeta (jstr "s")
        [.union (jstr "u")
          (some (.enum (jstr "kind") (some [jstr "a", jstr "b"])))
          (some [(jstr "a", []), (jstr "b", [])])])).2 =
      [.union (jstr "u")
        (some (.enum (jstr "type") (some [jstr "a", jstr "b"])))
        (some [(jstr "a", []), (jstr "b", [])])] ∧
    (decodeSchemaMeta (encodeSchemaMeta (jstr "s")
        [.union (jstr "u")
          (some (.enum (jstr "kind") (some [jstr "a", jstr "b"])))
          (some [(jstr "a", []), (jstr "b", [])])])).2 ≠
      [.union (jstr "u")
        (some (.enum (jstr "kind") (some [jstr "a", jstr "b"])))
        (some [(jstr "a", []), (jstr "b", [])])] := by
  have h := metaRoundTrip (jstr "s")
    [.union (jstr "u")
      (some (.enum (jstr "kind") (some [jstr "a", jstr "b"])))
      (some [(jstr "a", []), (jstr "b", [])])]
    (by decide) (by decide)
  have hval : ([.union (jstr "u")
        (some (.enum (jstr "kind") (some [jstr "a", jstr "b"])))
        (some [(jstr "a", []), (jstr "b", [])])]).map normalizeC1 =
      [.union (jstr "u")
        (some (.enum (jstr "type") (some [jstr "a", jstr "b"])))
        (some [(jstr "a", []), (jstr "b", [])])] := by
    simp only [List.map_cons, List.map_nil, nc1_union, Option.some_bind,
      FieldConfig.optionsAttr, Option.getD_some]
    rw [nc1V_cons, nc1V_cons, nc1V_nil]
    simp only [lookupD]
    norm_num [jstr, nc1List_nil]
  rw [h, hval]
  refine ⟨rfl, ?_⟩
  intro heq
  simp only [List.cons.injEq, FieldConfig.union.injEq, Option.some.injEq,
    FieldConfig.enum.injEq, and_true, true_and] at heq
  have hne : jstr "type" ≠ jstr "kind" := by decide
  exact hne heq

/-- Witness for C10 at a one-field payload whose table holds one name. -/
theorem decodeSchemaMeta_names_witness :
    okDecodedNames (metaFormatToFieldConfig (MetaField.mbool 0)
      (decodeStringTable (jstr "s"))) = true :=
  decodeSchemaMeta_names ⟨1, [MetaField.mbool 0], jstr "s"⟩ _ (by simp [decodeSchemaMeta])
